import Mathlib

/-!
Verification development for the ethpm-types core: source-map decoding
(`ethpm_types/sourcemap.py`), ABI canonical types, selectors, signature
parsing and topic encoding (`ethpm_types/abi.py`, `ethpm_types/utils.py`),
the ABI lookup container (`ethpm_types/contract_type.py`) and AST byte-range
queries (`ethpm_types/ast.py`).

Python values of type `Union[int, str]` (the entries of a split source-map
row) are embedded as `RowVal`; Python `Optional[int]` as `Option Int`;
Python exceptions as `Option`/`Except` results.  String manipulation is
embedded over `List Char` with structural recursion (mirroring Python
`str.split`, `str.strip`, substring tests), so that every definition
evaluates by kernel reduction on concrete inputs.
-/

namespace EthPM

/-- Python `s.split(sep)` for a one-character separator `sep`, over the
character list of `s`; always returns at least one (possibly empty) group. -/
def splitChar (sep : Char) : List Char → List (List Char)
  | [] => [[]]
  | c :: rest =>
    if c = sep then [] :: splitChar sep rest
    else
      match splitChar sep rest with
      | g :: gs => (c :: g) :: gs
      | [] => [[c]]

/-- Python whitespace test for `str.strip()` (ASCII fragment). -/
def isPyWhitespace (c : Char) : Bool :=
  c = ' ' ∨ c = '\t' ∨ c = '\n' ∨ c = '\r' ∨ c = '\x0b' ∨ c = '\x0c'

/-- Python `s.strip()` over the character list. -/
def pyStrip (l : List Char) : List Char :=
  ((l.dropWhile isPyWhitespace).reverse.dropWhile isPyWhitespace).reverse

/-- Whether `sub` occurs as a contiguous substring of `l`
(Python `sub in s`; both uses in the source have `sub` nonempty). -/
def containsSub (l : List Char) (sub : List Char) : Bool :=
  match l with
  | [] => sub.isEmpty
  | _ :: rest => sub.isPrefixOf l || containsSub rest sub

/-- A cell of a split source-map row: Python `Union[int, str]`
(`src_str.split(":")` mapped through `int(i) if i.isnumeric() else i`). -/
inductive RowVal where
  | int (n : Int)
  | str (s : String)
deriving DecidableEq, Repr

/-- Python `str.isnumeric()` restricted to ASCII digit strings (the only
numeric strings appearing in source maps): nonempty and all digits. -/
def pyIsNumeric (l : List Char) : Bool :=
  l ≠ [] && l.all Char.isDigit

/-- Value of an ASCII digit string as a natural number. -/
def digitsToNat (l : List Char) : Nat :=
  l.foldl (fun acc c => acc * 10 + (c.toNat - '0'.toNat)) 0

/-- Python `int(s)` on a plain decimal string with an optional leading sign:
`none` models a `ValueError`.  (Surrounding whitespace and underscores,
which CPython would also accept, do not occur in the claims' inputs.) -/
def pyParseInt (s : String) : Option Int :=
  match s.data with
  | [] => none
  | '-' :: rest =>
    if rest ≠ [] ∧ rest.all Char.isDigit then some (-(digitsToNat rest : Int)) else none
  | '+' :: rest =>
    if rest ≠ [] ∧ rest.all Char.isDigit then some ((digitsToNat rest : Int)) else none
  | l => if l.all Char.isDigit then some ((digitsToNat l : Int)) else none

/-- Python `int(x)` for a row cell: an `int` cell is returned unchanged,
a `str` cell is parsed (`none` models `ValueError`). -/
def pyIntOfCell : RowVal → Option Int
  | .int n => some n
  | .str s => pyParseInt s

/-- One split source-map row: `[int(i) if i.isnumeric() else i for i in
src_str.split(":")]` from `SourceMapItem.parse_str`. -/
def splitRow (src_str : String) : List RowVal :=
  (splitChar ':' src_str.data).map fun cs =>
    if pyIsNumeric cs then .int (digitsToNat cs) else .str (String.mk cs)

/-- `SourceMapItem` (`ethpm_types/sourcemap.py`).  `jump_code` is declared
`str` in Python but `model_construct` skips validation, so a numeric wire
field can leave an `int` there; it is therefore embedded as `RowVal`. -/
structure SourceMapItem where
  start : Option Int
  length : Option Int
  contract_id : Option Int
  jump_code : RowVal
deriving DecidableEq, Repr

/-- `SourceMapItem._extract_value(row, item_idx, ...)` restricted to the
row-cell outcome: `some (row[item_idx])` when the index is in range and the
cell is not the empty string, otherwise `none` (meaning the `previous`
default is used). -/
def extract_value (row : List RowVal) (item_idx : Nat) : Option RowVal :=
  match row.get? item_idx with
  | some v => if v ≠ .str "" then some v else none
  | none => none

/-- Python `x or -1` for an optional int `x` (`previous.start or -1` etc.):
`none` and `0` are falsy and collapse to `-1`. -/
def pyOrNeg1 : Option Int → Int
  | none => -1
  | some n => if n = 0 then -1 else n

/-- Python `x or ""` for a jump-code value: `0` and `""` are falsy. -/
def pyOrEmptyStr : RowVal → RowVal
  | .int n => if n = 0 then .str "" else .int n
  | .str s => .str s

/-- A numeric field in the `previous is None` branch of `parse_str`:
`int(cls._extract_value(row, i) or -1)`.  An absent/empty cell gives `-1`;
a *falsy* cell (`int 0`) also collapses to `-1`; otherwise `int(...)` is
applied (`none` models `ValueError`). -/
def firstNumField (row : List RowVal) (i : Nat) : Option Int :=
  match extract_value row i with
  | none => some (-1)
  | some (.int n) => if n = 0 then some (-1) else some n
  | some (.str s) => pyParseInt s

/-- A numeric field in the `previous is not None` branch of `parse_str`:
`int(cls._extract_value(row, i, previous=prev or -1))`. -/
def nextNumField (row : List RowVal) (i : Nat) (prev : Option Int) : Option Int :=
  match extract_value row i with
  | none => some (pyOrNeg1 prev)
  | some c => pyIntOfCell c

/-- `-1` means `None` when the record is assembled (`parse_str`, final
`model_construct` call). -/
def neg1ToNone (n : Int) : Option Int :=
  if n = -1 then none else some n

/-- `SourceMapItem.parse_str(src_str, previous)`; `none` models an
exception escaping the call (`ValueError` from `int(...)`). -/
def parse_str (src_str : String) (previous : Option SourceMapItem) :
    Option SourceMapItem :=
  let row := splitRow src_str
  match previous with
  | none => do
    let start ← firstNumField row 0
    let length ← firstNumField row 1
    let contract_id ← firstNumField row 2
    let jump_code :=
      match extract_value row 3 with
      | none => RowVal.str ""
      | some c => pyOrEmptyStr c
    pure ⟨neg1ToNone start, neg1ToNone length, neg1ToNone contract_id, jump_code⟩
  | some prev => do
    let start ← nextNumField row 0 prev.start
    let length ← nextNumField row 1 prev.length
    let contract_id ← nextNumField row 2 prev.contract_id
    let jump_code :=
      match extract_value row 3 with
      | none => pyOrEmptyStr prev.jump_code
      | some c => c
    pure ⟨neg1ToNone start, neg1ToNone length, neg1ToNone contract_id, jump_code⟩

/-- The body of `SourceMap.parse`: fold the `;`-separated steps, threading
the previous item. -/
def parseSteps (steps : List String) (previous : Option SourceMapItem) :
    Option (List SourceMapItem) :=
  match steps with
  | [] => some []
  | s :: rest => do
    let item ← parse_str s previous
    let tail ← parseSteps rest (some item)
    pure (item :: tail)

/-- `SourceMap.parse` collected into a list:
`for row in self.root.strip().split(";"): item = parse_str(row, previous=item)`. -/
def SourceMap.parse (root : String) : Option (List SourceMapItem) :=
  parseSteps ((splitChar ';' (pyStrip root.data)).map String.mk) none

/-- `ABIType` (`ethpm_types/abi.py`): `name`, `type` (a string or a nested
`ABIType`, Python `Union[str, "ABIType"]`), `components`, and the
`indexed` flag of the `EventABIType` subclass (`False` on plain method or
error inputs, where it is never read). -/
inductive ABIType where
  | mk (name : Option String) (type : Sum String ABIType)
      (components : Option (List ABIType)) (indexed : Bool)

def ABIType.name : ABIType → Option String
  | .mk n _ _ _ => n

def ABIType.type : ABIType → Sum String ABIType
  | .mk _ t _ _ => t

def ABIType.components : ABIType → Option (List ABIType)
  | .mk _ _ c _ => c

def ABIType.indexed : ABIType → Bool
  | .mk _ _ _ i => i

/-- Python truthiness of `self.components` (an empty list is falsy). -/
def pyTruthyComps : Option (List ABIType) → Bool
  | some (_ :: _) => true
  | _ => false

/-- Python truthiness of `self.name : Optional[str]`. -/
def pyTruthyName : Option String → Bool
  | some n => n ≠ ""
  | none => false

mutual

/-- `ABIType.canonical_type`: the tuple branch fires when `"tuple" in
self.type and self.components` (substring test, truthy components); its
array suffix comes from `"[" + str(self.type).split("[")[-1]`; a plain
string type is returned unchanged; a nested `ABIType` recurses.  (For a
nested `ABIType` the Python test `"tuple" in self.type` iterates the
pydantic model's `(field, value)` pairs and is always false, so the
recursion branch is reached.) -/
def ABIType.canonical_type : ABIType → String
  | .mk _ (Sum.inl s) (some comps) _ =>
    if containsSub s.data "tuple".data && pyTruthyComps (some comps) then
      "(" ++ String.intercalate "," (canonicalList comps) ++ ")" ++
        (if containsSub s.data "[".data then
          "[" ++ String.mk ((splitChar '[' s.data).getLastD []) else "")
    else s
  | .mk _ (Sum.inl s) none _ => s
  | .mk _ (Sum.inr t) _ _ => ABIType.canonical_type t

def canonicalList : List ABIType → List String
  | [] => []
  | t :: ts => ABIType.canonical_type t :: canonicalList ts

end

/-- `ABIType.signature`: `"<canonical_type> <name>"` when the name is
truthy, else the canonical type. -/
def ABIType.signature (t : ABIType) : String :=
  if pyTruthyName t.name then t.canonical_type ++ " " ++ t.name.getD ""
  else t.canonical_type

/-- `EventABIType.signature`: canonical type, then `" indexed"` when
indexed, then `" <name>"` when the name is truthy. -/
def eventABITypeSignature (t : ABIType) : String :=
  let sig := t.canonical_type
  let sig := if t.indexed then sig ++ " indexed" else sig
  if pyTruthyName t.name then sig ++ " " ++ t.name.getD "" else sig

/-- `MethodABI` (`ethpm_types/abi.py`). -/
structure MethodABI where
  name : String
  stateMutability : String := "nonpayable"
  inputs : List ABIType := []
  outputs : List ABIType := []

/-- `MethodABI.selector`: `f"{self.name}({','.join(canonical types)})"`. -/
def MethodABI.selector (m : MethodABI) : String :=
  m.name ++ "(" ++ String.intercalate "," (m.inputs.map ABIType.canonical_type) ++ ")"

/-- `MethodABI.signature`: display form with arg names and an optional
`" -> "` output part. -/
def MethodABI.signature (m : MethodABI) : String :=
  let input_args := String.intercalate ", " (m.inputs.map ABIType.signature)
  let output_args :=
    match m.outputs with
    | [] => ""
    | [o] => " -> " ++ o.canonical_type
    | os => " -> " ++ ("(" ++ String.intercalate ", " (os.map ABIType.canonical_type) ++ ")")
  m.name ++ "(" ++ input_args ++ ")" ++ output_args

/-- `EventABI` (`ethpm_types/abi.py`); inputs are `EventABIType`s. -/
structure EventABI where
  name : String
  inputs : List ABIType := []
  anonymous : Bool := false

/-- `EventABI.selector`: same form as the method selector. -/
def EventABI.selector (e : EventABI) : String :=
  e.name ++ "(" ++ String.intercalate "," (e.inputs.map ABIType.canonical_type) ++ ")"

/-- `EventABI.signature`: display form with `indexed` markers. -/
def EventABI.signature (e : EventABI) : String :=
  e.name ++ "(" ++ String.intercalate ", " (e.inputs.map eventABITypeSignature) ++ ")"

/-- `ErrorABI` (`ethpm_types/abi.py`). -/
structure ErrorABI where
  name : String
  inputs : List ABIType := []

/-- `ErrorABI.selector`: same form as the method selector. -/
def ErrorABI.selector (e : ErrorABI) : String :=
  e.name ++ "(" ++ String.intercalate "," (e.inputs.map ABIType.canonical_type) ++ ")"

/-- Python `s.split(sep)` for a multi-character separator, with explicit
fuel (`fuel ≥ l.length` at every call, established by `pySplitSeq`). -/
def splitSeqAux (sep : List Char) : Nat → List Char → List (List Char)
  | _, [] => [[]]
  | 0, l => [l]
  | fuel + 1, c :: rest =>
    if sep.isPrefixOf (c :: rest) then
      [] :: splitSeqAux sep fuel ((c :: rest).drop sep.length)
    else
      match splitSeqAux sep fuel rest with
      | g :: gs => (c :: g) :: gs
      | [] => [[c]]

/-- Python `s.split(sep)` for a nonempty multi-character separator
(used for `sig.split(" -> ")` in `parse_signature`). -/
def pySplitSeq (sep : List Char) (l : List Char) : List (List Char) :=
  splitSeqAux sep l.length l

/-- Python `s.strip("()")`: drop leading and trailing parenthesis
characters (used on the output part of a signature). -/
def stripParens (l : List Char) : List Char :=
  let isParen : Char → Bool := fun c => c = '(' || c = ')'
  ((l.dropWhile isParen).reverse.dropWhile isParen).reverse

/-- The space-skipping loop after a comma in `_parse_signature_inputs`
(`while characters[0] == " ": characters.pop(0)`); `none` models the
`IndexError` raised when the list empties. -/
def skipCommaSpaces : List Char → Option (List Char)
  | [] => none
  | c :: cs => if c = ' ' then skipCommaSpaces cs else some (c :: cs)

/-- The tuple-consuming loop in `_parse_signature_inputs`
(`while end_tuple != ")": end_tuple = characters.pop(0); type_ += end_tuple`):
returns the consumed characters (through the first `")"`) and the rest;
`none` models the `IndexError` when no `")"` follows. -/
def consumeTuple : List Char → Option (List Char × List Char)
  | [] => none
  | c :: cs =>
    if c = ')' then some ([c], cs)
    else
      match consumeTuple cs with
      | some (tk, rest) => some (c :: tk, rest)
      | none => none

theorem skipCommaSpaces_length {l r : List Char} (h : skipCommaSpaces l = some r) :
    r.length ≤ l.length := by
  induction l with
  | nil => simp [skipCommaSpaces] at h
  | cons c cs ih =>
    rw [skipCommaSpaces] at h
    by_cases hc : c = ' '
    · rw [if_pos hc] at h
      exact (ih h).trans (by simp)
    · rw [if_neg hc] at h
      cases h
      exact le_refl _

theorem consumeTuple_length {l : List Char} {tk rest : List Char}
    (h : consumeTuple l = some (tk, rest)) : rest.length < l.length := by
  induction l generalizing tk rest with
  | nil => simp [consumeTuple] at h
  | cons c cs ih =>
    rw [consumeTuple] at h
    by_cases hc : c = ')'
    · rw [if_pos hc] at h
      cases h
      simp
    · rw [if_neg hc] at h
      cases hcs : consumeTuple cs with
      | none => rw [hcs] at h; cases h
      | some p =>
        obtain ⟨tk', rest'⟩ := p
        rw [hcs] at h
        cases h
        exact Nat.lt_succ_of_lt (ih hcs)

/-- The character loop of `_parse_signature_inputs`, with explicit fuel so
that it is structurally recursive (every call site supplies
`fuel ≥ chars.length`, under which the fuel never runs out: each step
consumes at least one character).  State: the current
`type_`/`indexed`/`name` accumulators, the `working_on` flag (`true` =
`"type"`), and the result list; `none` models an `IndexError` escaping the
loop.  One entry is appended at each comma and, after the loop, when the
accumulated `type_` is truthy. -/
def sigLoopF (fuel : Nat) (chars : List Char) (ty ix nm : String)
    (workingOnType : Bool) (result : List (String × String × String)) :
    Option (List (String × String × String)) :=
  match fuel, chars with
  | _, [] => some (if ty ≠ "" then result ++ [(ty, ix, nm)] else result)
  | 0, _ :: _ => none
  | fuel + 1, c :: rest =>
    if c = ',' then
      match skipCommaSpaces rest with
      | none => none
      | some rest' => sigLoopF fuel rest' "" "" "" true (result ++ [(ty, ix, nm)])
    else if c = ' ' then
      if "indexed ".data.isPrefixOf rest then
        sigLoopF fuel (rest.drop 8) ty "indexed" nm false result
      else
        sigLoopF fuel rest ty ix nm false result
    else if c = '(' then
      match consumeTuple rest with
      | none => none
      | some (tk, rest') => sigLoopF fuel rest' ("(" ++ String.mk tk) ix nm workingOnType result
    else if workingOnType then
      sigLoopF fuel rest (ty.push c) ix nm workingOnType result
    else
      sigLoopF fuel rest ty ix (nm.push c) workingOnType result

/-- The character loop of `_parse_signature_inputs` at its natural fuel. -/
def sigLoop (chars : List Char) (ty ix nm : String) (workingOnType : Bool)
    (result : List (String × String × String)) :
    Option (List (String × String × String)) :=
  sigLoopF chars.length chars ty ix nm workingOnType result

/-- `_parse_signature_inputs` (`ethpm_types/utils.py`): empty string gives
`[]`, otherwise the character loop runs from the initial state. -/
def parseSignatureInputs (abi_str : List Char) :
    Option (List (String × String × String)) :=
  if abi_str = [] then some [] else sigLoop abi_str "" "" "" true []

/-- Python `l[-1:]` on a character list (used when `find("(")` is `-1`). -/
def takeLastOne (l : List Char) : List Char :=
  l.drop (l.length - 1)

/-- `parse_signature` (`ethpm_types/utils.py`): split off the `" -> "`
output part, take the name before the first `"("`, parse the inputs
between the outer parentheses, and split the outputs on commas after
stripping parentheses.  When the signature has no `"("`, Python's
`find` returns `-1` and the slices `[:index]`/`[index:]` take all-but-last
and the last character.  `none` models an exception. -/
def parse_signature (sig : String) :
    Option (String × List (String × String × String) × List String) := do
  let outsplit := pySplitSeq " -> ".data sig.data
  let std_sig := outsplit.headD []
  let outputs_maybe := match outsplit with
    | _ :: b :: _ => b
    | _ => []
  let (namePart, remPart) :=
    match std_sig.findIdx? (fun c => c = '(') with
    | some i => (std_sig.take i, std_sig.drop i)
    | none => (std_sig.dropLast, takeLastOne std_sig)
  let name := String.mk (pyStrip namePart)
  let remainder := ((pyStrip remPart).drop 1).dropLast
  let inputs ← parseSignatureInputs remainder
  let outputs :=
    if outputs_maybe ≠ [] then
      (splitChar ',' (stripParens outputs_maybe)).map fun o => String.mk (pyStrip o)
    else []
  pure (name, inputs, outputs)

/-- `MethodABI.from_signature`: rebuild a `MethodABI` from
`parse_signature`'s triple; `none` models an exception from parsing. -/
def MethodABI.from_signature (sig : String) : Option MethodABI :=
  (parse_signature sig).map fun r =>
    { name := r.1
      inputs := r.2.1.map fun t => ABIType.mk (some t.2.2) (Sum.inl t.1) none false
      outputs := r.2.2.map fun ty => ABIType.mk none (Sum.inl ty) none false }

/-- `EventABI.from_signature`: rebuild an `EventABI`; each input's
`indexed` flag is `indexed == "indexed"`. -/
def EventABI.from_signature (sig : String) : Option EventABI :=
  (parse_signature sig).map fun r =>
    { name := r.1
      inputs := r.2.1.map fun t =>
        ABIType.mk (some t.2.2) (Sum.inl t.1) none (t.2.1 = "indexed") }

/-- A Python value supplied to `encode_topics`/`encode_topic_value`:
`None`, a string, a byte string, an integer, or a list of values. -/
inductive TopicValue where
  | none
  | str (s : String)
  | bytes (bs : List Nat)
  | int (n : Int)
  | list (vs : List TopicValue)

/-- The return value of `encode_topic_value`
(`Union[Optional[str], list[str]]`, recursively for nested lists):
`None`, a hex string, or a list of encoded values. -/
inductive EncodedTopic where
  | null
  | str (s : String)
  | list (xs : List EncodedTopic)

def EncodedTopic.isNull : EncodedTopic → Bool
  | .null => true
  | _ => false

def TopicValue.isStr : TopicValue → Bool
  | .str _ => true
  | _ => false

/-- One byte as two lowercase hex characters. -/
def byteToHex (b : Nat) : List Char :=
  [Nat.digitChar (b / 16 % 16), Nat.digitChar (b % 16)]

/-- `eth_utils.encode_hex` / `to_hex` on bytes: `"0x"` plus lowercase hex. -/
def encodeHex (bs : List Nat) : String :=
  "0x" ++ String.mk (bs.map byteToHex).flatten

/-- UTF-8 bytes of a string (Python `bytes(value, "utf8")`). -/
def utf8Bytes (s : String) : List Nat :=
  s.toUTF8.toList.map UInt8.toNat

/-- Modelled from the spec: `eth_utils.to_hex(value)` (an external
dependency), used by `encode_topic_value` to coerce a non-`str` value for a
`string`-typed topic: bytes become `"0x"`-prefixed hex, integers their
minimal hex representation.  (`to_hex` of other values is outside the
modelled fragment.) -/
def pyToHex : TopicValue → String
  | .bytes bs => encodeHex bs
  | .int n => "0x" ++ String.mk (Nat.toDigits 16 n.toNat)
  | _ => ""

/-- Left-pad a hex-digit list to 64 digits (one 32-byte word). -/
def padLeft64 (l : List Char) : List Char :=
  List.replicate (64 - l.length) '0' ++ l

/-- Drop a `0x`/`0X` prefix from a character list. -/
def strip0x (l : List Char) : List Char :=
  match l with
  | '0' :: 'x' :: rest => rest
  | '0' :: 'X' :: rest => rest
  | _ => l

/-- Modelled from the spec: `HashStr32.__eth_pydantic_validate__` from the
external `eth_pydantic_types` dependency, used by `encode_topic_value` for
statically sized types: the value is rendered as hex and left-padded with
zeros to one 32-byte (64-hex-digit) `"0x"`-prefixed word.  (Negative
integers and values that fail validation are outside the modelled
fragment.) -/
def hashStr32Validate : TopicValue → String
  | .int n => "0x" ++ String.mk (padLeft64 (Nat.toDigits 16 n.toNat))
  | .bytes bs => "0x" ++ String.mk (padLeft64 (bs.map byteToHex).flatten)
  | .str s => "0x" ++ String.mk (padLeft64 (strip0x s.data))
  | _ => ""

/-- Modelled from the spec: `is_dynamic_sized_type` delegates to the
external `eth_abi.grammar` dependency (`grammar.parse(str(abi_type)).is_dynamic`).
For the elementary and array types exercised here: `string` and `bytes`
are dynamic, any type with a `[]` array suffix is dynamic, and a
fixed-size array is as dynamic as its base type — equivalently, the base
type (before the first `[`) is `string`/`bytes`, or some array suffix is
`[]`.  (Tuple type strings are outside the modelled fragment.) -/
def is_dynamic_sized_type (abi_type : String) : Bool :=
  match splitChar '[' abi_type.data with
  | [] => false
  | base :: suffixes =>
    (base = "string".data || base = "bytes".data) || suffixes.any (· = [']'])

/-- External dependencies of the topic encoder, universally quantified in
the theorems: `keccak(text=...)`, `keccak(bytes)`, and
`eth_abi.packed.encode_packed([type], [value])`. -/
structure ExtFns where
  keccakText : String → List Nat
  keccakBytes : List Nat → List Nat
  encodePacked : String → TopicValue → List Nat

/-- Python `str(ipt.type)` for the `Union[str, ABIType]` type field: a
nested `ABIType` renders as its pydantic repr, which is not a parseable
type (the grammar would raise); only string types are exercised here. -/
def typeStr : Sum String ABIType → String
  | Sum.inl s => s
  | Sum.inr _ => "<ABIType>"

mutual

/-- `encode_topic_value` (`ethpm_types/abi.py`): `None` passes through as a
wildcard, lists encode element-wise, dynamically sized types hash the
packed encoding (coercing non-`str` values for `string` via their hex
representation first), and statically sized types left-pad into a 32-byte
word via `HashStr32`. -/
def encode_topic_value (fns : ExtFns) (abi_type : String) : TopicValue → EncodedTopic
  | .none => .null
  | .list vs => .list (encodeTopicValueList fns abi_type vs)
  | v =>
    if is_dynamic_sized_type abi_type then
      let v' := if abi_type = "string" && !v.isStr then TopicValue.str (pyToHex v) else v
      .str (encodeHex (fns.keccakBytes (fns.encodePacked abi_type v')))
    else
      .str (hashStr32Validate v)

def encodeTopicValueList (fns : ExtFns) (abi_type : String) :
    List TopicValue → List EncodedTopic
  | [] => []
  | v :: vs => encode_topic_value fns abi_type v :: encodeTopicValueList fns abi_type vs

end

/-- The trailing-wildcard removal loop of `encode_topics`
(`while topics[-1] is None: topics.pop()`), with explicit fuel
(`fuel ≥ length + 1` at the call site): `none` models the `IndexError`
raised by `topics[-1]` when the list has been emptied. -/
def stripTrailingLoopF : Nat → List EncodedTopic → Option (List EncodedTopic)
  | 0, _ => Option.none
  | fuel + 1, l =>
    match l.getLast? with
    | Option.none => Option.none
    | some t => if t.isNull then stripTrailingLoopF fuel l.dropLast else some l

/-- The body of the `for ipt in self.inputs` loop of `encode_topics`:
skip non-indexed inputs; for an indexed input append the encoded value
when the input's name is truthy and bound in `inputs`, else append the
`None` wildcard. -/
def topicStep (fns : ExtFns) (inputs : List (String × TopicValue))
    (acc : List EncodedTopic) (ipt : ABIType) : List EncodedTopic :=
  if !ipt.indexed then acc
  else
    match ipt.name with
    | some n =>
      if n ≠ "" then
        match inputs.lookup n with
        | some v => acc ++ [encode_topic_value fns (typeStr ipt.type) v]
        | Option.none => acc ++ [.null]
      else acc ++ [.null]
    | Option.none => acc ++ [.null]

/-- `encode_topics` (`ethpm_types/abi.py`): the hashed selector, then one
topic per indexed input in declaration order (wildcard `None` unless the
input has a truthy name bound in `inputs`), with trailing wildcards popped
by the while loop.  The outer `Option` models only that loop's potential
`IndexError`. -/
def EventABI.encode_topics (fns : ExtFns) (e : EventABI)
    (inputs : List (String × TopicValue)) : Option (List EncodedTopic) :=
  let t0 : EncodedTopic := .str (encodeHex (fns.keccakText e.selector))
  let topics := e.inputs.foldl (topicStep fns inputs) [t0]
  stripTrailingLoopF (topics.length + 1) topics

/-- The two exception kinds of `ABIList.__getitem__`: `KeyError` (lookup
miss) and `ValueError` (malformed hex key in `HexBytes`). -/
inductive LookupErr where
  | keyError
  | valueError
deriving DecidableEq, Repr

/-- `eth_utils.is_0x_prefixed` (external dependency): the string starts
with `0x` or `0X`. -/
def is0xPrefixed (s : String) : Bool :=
  "0x".data.isPrefixOf s.data || "0X".data.isPrefixOf s.data

/-- Hex digit value of a character, `none` for a non-hex character. -/
def hexDigitVal (c : Char) : Option Nat :=
  if '0' ≤ c ∧ c ≤ '9' then some (c.toNat - '0'.toNat)
  else if 'a' ≤ c ∧ c ≤ 'f' then some (c.toNat - 'a'.toNat + 10)
  else if 'A' ≤ c ∧ c ≤ 'F' then some (c.toNat - 'A'.toNat + 10)
  else none

/-- Pair up hex digits into bytes (`none` on a non-hex character). -/
def hexPairsToBytes : List Char → Option (List Nat)
  | [] => some []
  | [_] => none
  | a :: b :: rest => do
    let hi ← hexDigitVal a
    let lo ← hexDigitVal b
    let tail ← hexPairsToBytes rest
    pure ((hi * 16 + lo) :: tail)

/-- `HexBytes(s)` for a hex string (external `hexbytes` dependency):
strip the `0x` prefix, left-pad odd-length hex with one `0`, and decode;
`none` models the `ValueError` on malformed hex. -/
def hexBytes (s : String) : Option (List Nat) :=
  let t := strip0x s.data
  let t := if t.length % 2 = 1 then '0' :: t else t
  hexPairsToBytes t

/-- `ABIList` (`ethpm_types/contract_type.py`): the element sequence plus
the container configuration `_selector_id_size` and `_selector_hash_fn`.
The element type is abstract; the `sel`/`nm` arguments of the lookup
functions embed the `abi.selector` / `abi.name` attribute accesses. -/
structure ABIList (α : Type) where
  items : List α
  selector_id_size : Nat := 32
  selector_hash_fn : Option (String → List Nat) := Option.none

/-- `ABIList.__getitem_bytes`: with a configured hash function, the first
element whose hashed selector agrees with the key on the first
`_selector_id_size` bytes; otherwise (or on a miss) `KeyError`. -/
def ABIList.getitem_bytes {α : Type} (sel : α → String) (l : ABIList α)
    (key : List Nat) : Except LookupErr α :=
  match l.selector_hash_fn with
  | some f =>
    match l.items.find?
        (fun abi => (f (sel abi)).take l.selector_id_size == key.take l.selector_id_size) with
    | some abi => .ok abi
    | Option.none => .error .keyError
  | Option.none => .error .keyError

/-- `ABIList.__getitem_str`: a key containing `"("` matches by exact
selector equality; a `0x`-prefixed key is converted through `HexBytes` and
delegated to the bytes lookup; any other key matches the first element by
name; a miss is a `KeyError`. -/
def ABIList.getitem_str {α : Type} (sel nm : α → String) (l : ABIList α)
    (key : String) : Except LookupErr α :=
  if containsSub key.data "(".data then
    match l.items.find? (fun abi => sel abi == key) with
    | some abi => .ok abi
    | Option.none => .error .keyError
  else if is0xPrefixed key then
    match hexBytes key with
    | some bs => ABIList.getitem_bytes sel l bs
    | Option.none => .error .valueError
  else
    match l.items.find? (fun abi => nm abi == key) with
    | some abi => .ok abi
    | Option.none => .error .keyError

/-- `ASTNode` (`ethpm_types/ast.py`) restricted to what the byte-range
query reads: the parsed `src` item and the child nodes discovered by
`children` (in their discovery order). -/
inductive ASTNode where
  | mk (src : SourceMapItem) (children : List ASTNode)

def ASTNode.src : ASTNode → SourceMapItem
  | .mk s _ => s

def ASTNode.children : ASTNode → List ASTNode
  | .mk _ c => c

/-- Python `x or 0` for an optional int (`self.src.length or 0`): `None`
and `0` both give `0`. -/
def pyOr0 (x : Option Int) : Int :=
  x.getD 0

mutual

/-- `ASTNode.get_node`: return this node when its `src.start` equals the
query's and the two `length or 0` values agree, else the first matching
descendant in child order (depth-first pre-order). -/
def ASTNode.get_node : ASTNode → SourceMapItem → Option ASTNode
  | .mk s children, src =>
    if s.start = src.start ∧ pyOr0 s.length = pyOr0 src.length then
      some (.mk s children)
    else getNodeOfChildren children src

def getNodeOfChildren : List ASTNode → SourceMapItem → Option ASTNode
  | [], _ => Option.none
  | c :: cs, src =>
    match c.get_node src with
    | some n => some n
    | Option.none => getNodeOfChildren cs src

end

mutual

/-- `ASTNode.iter_nodes`: the node followed by all nodes of its children's
subtrees, in order (depth-first pre-order). -/
def ASTNode.iter_nodes : ASTNode → List ASTNode
  | .mk s children => .mk s children :: iterNodesOfChildren children

def iterNodesOfChildren : List ASTNode → List ASTNode
  | [] => []
  | c :: cs => c.iter_nodes ++ iterNodesOfChildren cs

end

/-! Claim-side descriptions and wellformedness predicates used by the
theorems below. -/

/-- Boolean form of the `get_node` match condition, for phrasing the
search as a `find?` over the pre-order traversal. -/
def srcMatches (q : SourceMapItem) (n : ASTNode) : Bool :=
  decide (n.src.start = q.start ∧ pyOr0 n.src.length = pyOr0 q.length)

/-- The topic contributed by one indexed event input, per the spec:
wildcard unless the input has a truthy name bound in the value map,
else the encoded value. -/
def eventTopicOf (fns : ExtFns) (ins : List (String × TopicValue))
    (ipt : ABIType) : EncodedTopic :=
  match ipt.name with
  | some n =>
    if n ≠ "" then
      match ins.lookup n with
      | some v => encode_topic_value fns (typeStr ipt.type) v
      | Option.none => .null
    else .null
  | Option.none => .null

/-- The assembled topic list before trailing-wildcard removal, per the
spec: the hashed selector, then one topic per indexed input in
declaration order. -/
def assembledTopics (fns : ExtFns) (e : EventABI)
    (ins : List (String × TopicValue)) : List EncodedTopic :=
  .str (encodeHex (fns.keccakText e.selector)) ::
    (e.inputs.filter ABIType.indexed).map (eventTopicOf fns ins)

/-- Remove exactly the trailing wildcard topics (the spec's description of
the while loop). -/
def dropTrailingNulls (l : List EncodedTopic) : List EncodedTopic :=
  (l.reverse.dropWhile EncodedTopic.isNull).reverse

/-- Characters that keep a name or type string inert for the signature
grammar: no separators (space, comma, parentheses), no `"->"` arrow
characters, no whitespace. -/
def goodChar (c : Char) : Bool :=
  !(c = ' ' || c = ',' || c = '(' || c = ')' || c = '-' || c = '>' || isPyWhitespace c)

/-- A wellformed identifier or elementary type string: nonempty and made
of inert characters. -/
def goodIdent (s : String) : Bool :=
  s ≠ "" && s.data.all goodChar

/-- A wellformed tuple component: an elementary string type without
components. -/
def wfComp (t : ABIType) : Bool :=
  match t.type, t.components with
  | Sum.inl s, Option.none => goodIdent s
  | _, _ => false

/-- A wellformed ABI input for the signature round trip: a named input
whose type is either an elementary string type or a `"tuple"` with
nonempty elementary components. -/
def wfInput (t : ABIType) : Bool :=
  (match t.name with
   | some n => goodIdent n
   | Option.none => false) &&
  (match t.type, t.components with
   | Sum.inl s, Option.none => goodIdent s
   | Sum.inl s, some cs => s = "tuple" && !cs.isEmpty && cs.all wfComp
   | _, _ => false)

/-- A wellformed output: an elementary string type (its canonical type has
no parentheses or commas). -/
def wfOutput (t : ABIType) : Bool :=
  match t.type, t.components with
  | Sum.inl s, Option.none => goodIdent s
  | _, _ => false

/-- A `MethodABI` in the wellformed fragment of the signature grammar. -/
def wfMethod (m : MethodABI) : Bool :=
  goodIdent m.name && m.inputs.all wfInput && m.outputs.all wfOutput

/-- An `EventABI` in the wellformed fragment of the signature grammar. -/
def wfEvent (e : EventABI) : Bool :=
  goodIdent e.name && e.inputs.all wfInput

/-! ## Theorems -/

/-- C1: the copy-forward example `decode("4:5:6:-;;;")` does yield four
identical records, but copy-forward of a zero-valued field is broken: in
`decode("1:1:1:a;0:0:0:b;")` the third step elides every field, yet its
numeric fields come back unset (`None`) instead of copying the prior
record's zeros, because `previous.start or -1` treats `0` as absent. -/
theorem sourcemap_zero_copy_forward_failing :
    SourceMap.parse "4:5:6:-;;;" =
      some [⟨some 4, some 5, some 6, .str "-"⟩, ⟨some 4, some 5, some 6, .str "-"⟩,
            ⟨some 4, some 5, some 6, .str "-"⟩, ⟨some 4, some 5, some 6, .str "-"⟩] ∧
    SourceMap.parse "1:1:1:a;0:0:0:b;" =
      some [⟨some 1, some 1, some 1, .str "a"⟩, ⟨some 0, some 0, some 0, .str "b"⟩,
            ⟨none, none, none, .str "b"⟩] :=
  ⟨by decide, by decide⟩

/-- C3: `canonical_type` of `tuple[2][]` (components `[uint256]`) appends
only `"[]"` — the segment after the *last* `[` — instead of the full
trailing array suffix `"[2][]"`. -/
theorem canonical_type_multidim_suffix_failing :
    ABIType.canonical_type
      (.mk none (Sum.inl "tuple[2][]")
        (some [.mk none (Sum.inl "uint256") none false]) false) = "(uint256)[]" ∧
    "(uint256)[]" ≠ "(uint256)[2][]" :=
  ⟨rfl, by decide⟩

/-- C7 counterexample: decoding a source map whose first step elides every
field does not fail — `decode(";1:2:3:a")` succeeds, producing an all-unset
first record. -/
theorem parse_leading_elision_counterexample :
    SourceMap.parse ";1:2:3:a" =
      some [⟨none, none, none, .str ""⟩, ⟨some 1, some 2, some 3, .str "a"⟩] := by
  decide

/-- C7 amended: an early step with elided fields never raises; with no
prior record, any step made only of empty fields decodes to the all-unset
record (numeric fields `None`, jump code `""`). -/
theorem parse_leading_elision_amended (s : String)
    (h : ((splitChar ':' s.data).all fun g => g.isEmpty) = true) :
    parse_str s none = some ⟨none, none, none, .str ""⟩ := by
  have hcell : ∀ i, extract_value (splitRow s) i = Option.none := by
    intro i
    unfold extract_value splitRow
    rw [List.get?_eq_getElem?, List.getElem?_map]
    cases hg : (splitChar ':' s.data)[i]? with
    | none => rfl
    | some g =>
      have hmem : g ∈ splitChar ':' s.data := List.getElem?_mem hg
      have hge : g = [] := by
        have := List.all_eq_true.mp h _ hmem
        simpa using this
      subst hge
      simp [pyIsNumeric]
  unfold parse_str
  simp [firstNumField, hcell, neg1ToNone, Option.bind]

/-- Witness for C7's amended theorem at the concrete step `"::"`. -/
theorem parse_leading_elision_amended_witness :
    parse_str "::" none = some ⟨none, none, none, .str ""⟩ :=
  parse_leading_elision_amended "::" (by decide)

/-- `canonical_type` does not depend on the `name` and `indexed` fields. -/
theorem canonical_type_ext (n n' : Option String) (ty : Sum String ABIType)
    (comps : Option (List ABIType)) (i i' : Bool) :
    (ABIType.mk n ty comps i).canonical_type = (ABIType.mk n' ty comps i').canonical_type := by
  cases ty with
  | inl s => cases comps <;> rfl
  | inr t => rfl

/-- Mapping `canonical_type` is invariant under pointwise agreement of the
`type` and `components` fields. -/
theorem map_canonical_eq {l l' : List ABIType}
    (h : List.Forall₂ (fun a b => a.type = b.type ∧ a.components = b.components) l l') :
    l.map ABIType.canonical_type = l'.map ABIType.canonical_type := by
  induction h with
  | nil => rfl
  | cons h₁ h₂ ih =>
    rename_i a b l₁ l₂
    obtain ⟨ht, hc⟩ := h₁
    cases a with
    | mk na ta ca ia =>
      cases b with
      | mk nb tb cb ib =>
        simp only [ABIType.type] at ht
        simp only [ABIType.components] at hc
        subst ht
        subst hc
        simp only [List.map_cons, ih]
        rw [canonical_type_ext na nb ta ca ia ib]

/-- C2: method, error and event selectors are the name followed by the
parenthesised comma-join (no spaces) of the inputs' canonical types; the
event selector ignores the inputs' `indexed` flags (and names); the
`transfer(address,uint256)` example. -/
theorem selector_strings_spec (m : MethodABI) (er : ErrorABI) (e e' : EventABI)
    (hname : e.name = e'.name)
    (hinp : List.Forall₂ (fun a b => a.type = b.type ∧ a.components = b.components)
      e.inputs e'.inputs) :
    m.selector =
      m.name ++ "(" ++ String.intercalate "," (m.inputs.map ABIType.canonical_type) ++ ")" ∧
    er.selector =
      er.name ++ "(" ++ String.intercalate "," (er.inputs.map ABIType.canonical_type) ++ ")" ∧
    e.selector =
      e.name ++ "(" ++ String.intercalate "," (e.inputs.map ABIType.canonical_type) ++ ")" ∧
    e.selector = e'.selector ∧
    MethodABI.selector
      ⟨"transfer", "nonpayable",
        [.mk (some "to") (Sum.inl "address") none false,
         .mk (some "value") (Sum.inl "uint256") none false], []⟩ =
      "transfer(address,uint256)" := by
  refine ⟨rfl, rfl, rfl, ?_, rfl⟩
  unfold EventABI.selector
  rw [hname, map_canonical_eq hinp]

/-- Witness for C2 at concrete entries: two `Transfer` events differing
only in an input's `indexed` flag share the selector. -/
theorem selector_strings_spec_witness :
    EventABI.selector ⟨"Transfer", [.mk (some "a") (Sum.inl "address") none true], false⟩ =
      EventABI.selector ⟨"Transfer", [.mk (some "a") (Sum.inl "address") none false], false⟩ :=
  (selector_strings_spec ⟨"transfer", "nonpayable", [], []⟩ ⟨"E", []⟩
      ⟨"Transfer", [.mk (some "a") (Sum.inl "address") none true], false⟩
      ⟨"Transfer", [.mk (some "a") (Sum.inl "address") none false], false⟩ rfl
      (List.Forall₂.cons ⟨rfl, rfl⟩ List.Forall₂.nil)).2.2.2.1

mutual

/-- `get_node` equals the first `srcMatches` hit of the pre-order
traversal `iter_nodes`. -/
theorem get_node_eq_find : ∀ (t : ASTNode) (q : SourceMapItem),
    ASTNode.get_node t q = (ASTNode.iter_nodes t).find? (srcMatches q)
  | .mk s ch, q => by
    rw [ASTNode.get_node, ASTNode.iter_nodes, List.find?]
    by_cases hc : s.start = q.start ∧ pyOr0 s.length = pyOr0 q.length
    · have hm : srcMatches q (.mk s ch) = true := by
        simp [srcMatches, ASTNode.src]
        exact hc
      rw [if_pos hc, hm]
    · have hm : srcMatches q (.mk s ch) = false := by
        simp only [srcMatches, ASTNode.src]
        exact decide_eq_false hc
      rw [if_neg hc, hm]
      exact getNodeOfChildren_eq_find ch q

theorem getNodeOfChildren_eq_find : ∀ (l : List ASTNode) (q : SourceMapItem),
    getNodeOfChildren l q = (iterNodesOfChildren l).find? (srcMatches q)
  | [], _ => rfl
  | c :: cs, q => by
    rw [getNodeOfChildren, iterNodesOfChildren, List.find?_append,
      ← get_node_eq_find c q, ← getNodeOfChildren_eq_find cs q]
    cases h : ASTNode.get_node c q <;> simp [h]

end

/-- C9 amended: `get_node` performs a depth-first pre-order search whose
match condition compares `start` exactly and compares `length or 0` on
both sides (so a query with length `0`/absent matches only nodes whose own
length is `0`/absent); the concrete `(104, 8)` fixture returns the child
and a non-matching range returns `none`. -/
theorem get_node_preorder_amended :
    (∀ (t : ASTNode) (q : SourceMapItem),
        ASTNode.get_node t q = (ASTNode.iter_nodes t).find? (srcMatches q)) ∧
    ASTNode.get_node
        (.mk ⟨some 0, some 50, none, .str ""⟩ [.mk ⟨some 104, some 8, none, .str ""⟩ []])
        ⟨some 104, some 8, none, .str ""⟩ =
      some (.mk ⟨some 104, some 8, none, .str ""⟩ []) ∧
    ASTNode.get_node
        (.mk ⟨some 0, some 50, none, .str ""⟩ [.mk ⟨some 104, some 8, none, .str ""⟩ []])
        ⟨some 300, some 8, none, .str ""⟩ = none :=
  ⟨get_node_eq_find, rfl, rfl⟩

/-- C9 counterexample: a node whose range is `(104, 8)` is *not* returned
for the query `(104, length absent)` — the length comparison is not
skipped for a 0/absent query length. -/
theorem get_node_zero_length_counterexample :
    ASTNode.get_node (.mk ⟨some 104, some 8, none, .str ""⟩ [])
      ⟨some 104, none, none, .str ""⟩ = none := rfl

/-- One pass of the topic-assembly loop body, described by
`eventTopicOf`. -/
theorem topicStep_eq (fns : ExtFns) (ins : List (String × TopicValue))
    (acc : List EncodedTopic) (ipt : ABIType) :
    topicStep fns ins acc ipt =
      if ipt.indexed then acc ++ [eventTopicOf fns ins ipt] else acc := by
  unfold topicStep eventTopicOf
  cases hix : ipt.indexed with
  | false => simp
  | true =>
    simp only [Bool.not_true, Bool.false_eq_true, if_false, if_true]
    cases hn : ipt.name with
    | none => rfl
    | some n =>
      by_cases hne : n = ""
      · simp [hne]
      · simp only [hne, ne_eq, not_false_eq_true, if_true]
        cases ins.lookup n <;> rfl

/-- The topic-assembly fold of `encode_topics` appends exactly one topic
per indexed input, as described by `eventTopicOf`. -/
theorem topics_foldl_eq (fns : ExtFns) (ins : List (String × TopicValue)) :
    ∀ (l : List ABIType) (acc : List EncodedTopic),
      l.foldl (topicStep fns ins) acc
      = acc ++ (l.filter ABIType.indexed).map (eventTopicOf fns ins) := by
  intro l
  induction l with
  | nil => intro acc; simp
  | cons ipt rest ih =>
    intro acc
    rw [List.foldl_cons, List.filter_cons, topicStep_eq]
    cases hix : ipt.indexed with
    | false =>
      simp only [Bool.false_eq_true, if_false]
      exact ih acc
    | true =>
      simp only [if_true, List.map_cons]
      rw [ih]
      simp

/-- Dropping trailing wildcards from a list with a non-wildcard head keeps
the head. -/
theorem dropTrailingNulls_cons (x : EncodedTopic) (hx : x.isNull = false)
    (xs : List EncodedTopic) :
    dropTrailingNulls (x :: xs) = x :: dropTrailingNulls xs := by
  unfold dropTrailingNulls
  rw [List.reverse_cons, List.dropWhile_append]
  by_cases h : (xs.reverse.dropWhile EncodedTopic.isNull).isEmpty
  · rw [if_pos h]
    rw [List.isEmpty_iff] at h
    rw [h]
    simp [List.dropWhile, hx]
  · rw [if_neg h]
    simp

/-- An all-wildcard list strips to nothing. -/
theorem dropTrailingNulls_all_null (xs : List EncodedTopic)
    (h : ∀ x ∈ xs, x.isNull = true) : dropTrailingNulls xs = [] := by
  unfold dropTrailingNulls
  have : xs.reverse.dropWhile EncodedTopic.isNull = [] := by
    rw [List.dropWhile_eq_nil_iff]
    intro x hxm
    exact h x (List.mem_reverse.mp hxm)
  rw [this, List.reverse_nil]

/-- If the last element is not a wildcard, stripping is the identity. -/
theorem dropTrailingNulls_eq_self_of_getLast (l : List EncodedTopic)
    (hne : l ≠ []) (ht : (l.getLast hne).isNull = false) :
    dropTrailingNulls l = l := by
  unfold dropTrailingNulls
  have hdecomp : l.dropLast ++ [l.getLast hne] = l := List.dropLast_append_getLast hne
  conv_lhs => rw [← hdecomp]
  conv_rhs => rw [← hdecomp]
  rw [List.reverse_append, List.reverse_singleton, List.singleton_append,
    List.dropWhile_cons, if_neg (by rw [ht]; exact Bool.false_ne_true)]
  simp

/-- If the last element is a wildcard, stripping ignores it. -/
theorem dropTrailingNulls_dropLast_of_getLast (l : List EncodedTopic)
    (hne : l ≠ []) (ht : (l.getLast hne).isNull = true) :
    dropTrailingNulls l.dropLast = dropTrailingNulls l := by
  unfold dropTrailingNulls
  have hdecomp : l.dropLast ++ [l.getLast hne] = l := List.dropLast_append_getLast hne
  conv_rhs => rw [← hdecomp]
  rw [List.reverse_append, List.reverse_singleton, List.singleton_append,
    List.dropWhile_cons, if_pos (by rw [ht])]

/-- The `while topics[-1] is None: topics.pop()` loop, run with enough
fuel on a list whose head is not a wildcard, terminates without the
`IndexError` and removes exactly the trailing wildcards. -/
theorem stripTrailingLoopF_eq (x : EncodedTopic) (hx : x.isNull = false) :
    ∀ (fuel : Nat) (xs : List EncodedTopic), (x :: xs).length < fuel →
      stripTrailingLoopF fuel (x :: xs) = some (dropTrailingNulls (x :: xs)) := by
  intro fuel
  induction fuel with
  | zero => intro xs h; simp at h
  | succ fuel ih =>
    intro xs hlen
    have hne : (x :: xs) ≠ [] := by simp
    rw [stripTrailingLoopF]
    have hl : (x :: xs).getLast? = some ((x :: xs).getLast hne) :=
      List.getLast?_eq_getLast _ hne
    rw [hl]
    simp only []
    cases ht : ((x :: xs).getLast hne).isNull with
    | false =>
      simp only [Bool.false_eq_true, if_false]
      rw [dropTrailingNulls_eq_self_of_getLast _ hne ht]
    | true =>
      simp only [if_true]
      -- the last element is a wildcard, so it is not the head: xs ≠ []
      have hxs : xs ≠ [] := by
        intro hxse
        subst hxse
        simp only [List.getLast_singleton] at ht
        rw [hx] at ht
        exact Bool.false_ne_true ht
      rw [← dropTrailingNulls_dropLast_of_getLast _ hne ht,
        List.dropLast_cons_of_ne_nil hxs]
      have hlen' : (x :: xs.dropLast).length < fuel := by
        have h1 : xs.dropLast.length = xs.length - 1 := List.length_dropLast xs
        have h2 : xs.length ≠ 0 := fun h0 => hxs (List.eq_nil_of_length_eq_zero h0)
        simp only [List.length_cons] at hlen ⊢
        omega
      exact ih xs.dropLast hlen'

/-- With an empty value map every indexed input contributes a wildcard. -/
theorem eventTopicOf_nil (fns : ExtFns) (ipt : ABIType) :
    eventTopicOf fns [] ipt = .null := by
  unfold eventTopicOf
  cases hn : ipt.name with
  | none => rfl
  | some n =>
    by_cases hne : n = ""
    · simp [hne]
    · simp [hne, List.lookup]

/-- `encode_topics` never hits the loop's `IndexError` and computes the
assembled topic list with exactly the trailing wildcards removed. -/
theorem encode_topics_eq (fns : ExtFns) (e : EventABI)
    (ins : List (String × TopicValue)) :
    EventABI.encode_topics fns e ins =
      some (dropTrailingNulls (assembledTopics fns e ins)) := by
  unfold EventABI.encode_topics
  simp only []
  rw [topics_foldl_eq]
  have hcons :
      ([EncodedTopic.str (encodeHex (fns.keccakText e.selector))] ++
        (e.inputs.filter ABIType.indexed).map (eventTopicOf fns ins)) =
      EncodedTopic.str (encodeHex (fns.keccakText e.selector)) ::
        (e.inputs.filter ABIType.indexed).map (eventTopicOf fns ins) := rfl
  rw [hcons, stripTrailingLoopF_eq (EncodedTopic.str (encodeHex (fns.keccakText e.selector))) rfl _ _ (Nat.lt_succ_self _)]
  rfl

/-- C5: the encoded topic list is the hashed selector followed by one
entry per indexed input in declaration order — wildcard for an absent
name, `encode_topic_value` otherwise (which encodes lists element-wise) —
with the trailing wildcards removed and non-trailing wildcards kept in
position; with no supplied values the result is exactly the singleton
hashed selector. -/
theorem encode_topics_structure (fns : ExtFns) (e : EventABI)
    (ins : List (String × TopicValue)) :
    EventABI.encode_topics fns e ins =
      some (dropTrailingNulls (assembledTopics fns e ins)) ∧
    EventABI.encode_topics fns e [] =
      some [.str (encodeHex (fns.keccakText e.selector))] := by
  refine ⟨encode_topics_eq fns e ins, ?_⟩
  rw [encode_topics_eq fns e []]
  unfold assembledTopics
  rw [dropTrailingNulls_cons (EncodedTopic.str (encodeHex (fns.keccakText e.selector))) rfl,
    dropTrailingNulls_all_null]
  intro x hx
  rw [List.mem_map] at hx
  obtain ⟨ipt, _, hxe⟩ := hx
  rw [← hxe, eventTopicOf_nil]
  rfl

/-- C10: the topic list handed to the trailing-wildcard loop always starts
with the non-wildcard hashed selector, so the loop terminates before the
list empties, never indexes an empty list, and the result is a non-empty
list headed by the hashed selector. -/
theorem encode_topics_loop_safety (fns : ExtFns) (e : EventABI)
    (ins : List (String × TopicValue)) :
    ∃ l, EventABI.encode_topics fns e ins = some l ∧ l ≠ [] ∧
      l.head? = some (.str (encodeHex (fns.keccakText e.selector))) := by
  refine ⟨dropTrailingNulls (assembledTopics fns e ins), encode_topics_eq fns e ins, ?_, ?_⟩ <;>
    rw [assembledTopics,
      dropTrailingNulls_cons (EncodedTopic.str (encodeHex (fns.keccakText e.selector))) rfl] <;>
    simp

/-- `splitChar` always produces at least one group. -/
theorem splitChar_ne_nil (c : Char) (l : List Char) : splitChar c l ≠ [] := by
  cases l with
  | nil => simp [splitChar]
  | cons x xs =>
    rw [splitChar]
    by_cases hx : x = c
    · simp [hx]
    · rw [if_neg hx]
      cases h : splitChar c xs <;> simp

/-- Splitting at an explicit separator occurrence splits around it
(Python `(a + sep + b).split(sep) == a.split(sep) + b.split(sep)` for a
one-character separator). -/
theorem splitChar_append_sep (c : Char) (a b : List Char) :
    splitChar c (a ++ c :: b) = splitChar c a ++ splitChar c b := by
  induction a with
  | nil => simp [splitChar]
  | cons x xs ih =>
    by_cases hx : x = c
    · subst hx
      simp only [List.cons_append]
      rw [splitChar, if_pos rfl, ih]
      conv_rhs => rw [splitChar, if_pos rfl]
      rfl
    · simp only [List.cons_append]
      rw [splitChar, if_neg hx, ih]
      conv_rhs => rw [splitChar, if_neg hx]
      cases h : splitChar c xs with
      | nil => exact absurd h (splitChar_ne_nil c xs)
      | cons g gs => simp

/-- For a single (non-`None`, non-list) value, `encode_topic_value` is the
two-way branch on `is_dynamic_sized_type`. -/
theorem encode_topic_value_single (fns : ExtFns) (ty : String) (v : TopicValue)
    (hv1 : v ≠ .none) (hv2 : ∀ vs, v ≠ .list vs) :
    encode_topic_value fns ty v =
      if is_dynamic_sized_type ty then
        .str (encodeHex (fns.keccakBytes (fns.encodePacked ty
          (if ty = "string" && !v.isStr then TopicValue.str (pyToHex v) else v))))
      else .str (hashStr32Validate v) := by
  cases v with
  | none => exact absurd rfl hv1
  | list vs => exact absurd rfl (hv2 vs)
  | str s => rfl
  | bytes bs => rfl
  | int n => rfl

/-- C6: `encode_topic_value` hashes the packed encoding for dynamically
sized types (coercing non-string values for `string` via their hex
representation) and left-pads statically sized values into a 32-byte word
via `HashStr32` with no hashing; `string`, `bytes` and `[]`-suffixed array
types are dynamic while `uint256`/`address`/`bytes32` are static; for a
string-typed value the topic is the keccak of the value's UTF-8 bytes. -/
theorem encode_topic_value_spec (fns : ExtFns) (ty : String) (v : TopicValue)
    (s t : String) (hv1 : v ≠ .none) (hv2 : ∀ vs, v ≠ .list vs)
    (hpack : fns.encodePacked "string" (.str s) = utf8Bytes s) :
    (is_dynamic_sized_type ty = true →
      encode_topic_value fns ty v =
        .str (encodeHex (fns.keccakBytes (fns.encodePacked ty
          (if ty = "string" && !v.isStr then .str (pyToHex v) else v))))) ∧
    (is_dynamic_sized_type ty = false →
      encode_topic_value fns ty v = .str (hashStr32Validate v)) ∧
    is_dynamic_sized_type "string" = true ∧
    is_dynamic_sized_type "bytes" = true ∧
    is_dynamic_sized_type (t ++ "[]") = true ∧
    is_dynamic_sized_type "uint256" = false ∧
    is_dynamic_sized_type "address" = false ∧
    is_dynamic_sized_type "bytes32" = false ∧
    encode_topic_value fns "string" (.str s) =
      .str (encodeHex (fns.keccakBytes (utf8Bytes s))) := by
  refine ⟨?_, ?_, rfl, rfl, ?_, rfl, rfl, rfl, ?_⟩
  · intro hdyn
    rw [encode_topic_value_single fns ty v hv1 hv2, if_pos hdyn]
  · intro hstat
    rw [encode_topic_value_single fns ty v hv1 hv2,
      if_neg (by rw [hstat]; exact Bool.false_ne_true)]
  · unfold is_dynamic_sized_type
    have hdata : (t ++ "[]").data = t.data ++ '[' :: [']'] := String.data_append t "[]"
    rw [hdata, splitChar_append_sep]
    cases h : splitChar '[' t.data with
    | nil => exact absurd h (splitChar_ne_nil '[' t.data)
    | cons base suffixes => simp [splitChar]
  · rw [encode_topic_value_single fns "string" (.str s) (by simp) (fun vs => by simp),
      if_pos (show is_dynamic_sized_type "string" = true from rfl)]
    simp only [TopicValue.isStr, Bool.not_true, Bool.and_false, Bool.false_eq_true, if_false]
    rw [hpack]

/-- Witness for C6 with a concrete identity-hash instantiation on the
string value `"hi"`. -/
theorem encode_topic_value_spec_witness :
    encode_topic_value
        ⟨fun _ => [0], fun bs => bs,
          fun ty v =>
            match ty, v with
            | "string", .str s => utf8Bytes s
            | _, _ => []⟩ "string" (.str "hi") =
      .str (encodeHex (utf8Bytes "hi")) :=
  (encode_topic_value_spec
      ⟨fun _ => [0], fun bs => bs,
        fun ty v =>
          match ty, v with
          | "string", .str s => utf8Bytes s
          | _, _ => []⟩ "string" (.str "hi") "hi" "uint8"
      (by simp) (fun vs => by simp) rfl).2.2.2.2.2.2.2.2

/-- `find?` returns exactly the first element satisfying the predicate. -/
theorem find?_eq_some_first {α : Type} (p : α → Bool) (l : List α) (a : α) :
    l.find? p = some a ↔
      p a = true ∧ ∃ l1 l2, l = l1 ++ a :: l2 ∧ ∀ b ∈ l1, p b = false := by
  induction l with
  | nil => simp
  | cons x xs ih =>
    rw [List.find?]
    cases hx : p x with
    | true =>
      simp only []
      constructor
      · intro h
        have hxa : x = a := Option.some.inj h
        subst hxa
        exact ⟨hx, [], xs, rfl, by simp⟩
      · rintro ⟨hpa, l1, l2, hd, hall⟩
        cases l1 with
        | nil =>
          simp only [List.nil_append, List.cons.injEq] at hd
          rw [hd.1]
        | cons y ys =>
          simp only [List.cons_append, List.cons.injEq] at hd
          have : p y = false := hall y (by simp)
          rw [← hd.1, hx] at this
          exact absurd this (by simp)
    | false =>
      simp only []
      rw [ih]
      constructor
      · rintro ⟨hpa, l1, l2, hd, hall⟩
        refine ⟨hpa, x :: l1, l2, by rw [hd, List.cons_append], ?_⟩
        intro b hb
        rcases List.mem_cons.mp hb with hbx | hbl
        · rw [hbx]; exact hx
        · exact hall b hbl
      · rintro ⟨hpa, l1, l2, hd, hall⟩
        cases l1 with
        | nil =>
          simp only [List.nil_append, List.cons.injEq] at hd
          rw [← hd.1] at hpa
          rw [hx] at hpa
          exact absurd hpa (by simp)
        | cons y ys =>
          simp only [List.cons_append, List.cons.injEq] at hd
          exact ⟨hpa, ys, l2, hd.2, fun b hb => hall b (by simp [hb])⟩

/-- Routing a `find?` result into `ok`/`KeyError`. -/
theorem firstMatch_ok {α : Type} (p : α → Bool) (items : List α) (a : α) :
    (match items.find? p with
      | some abi => Except.ok abi
      | Option.none => Except.error LookupErr.keyError) = Except.ok (ε := LookupErr) a ↔
      items.find? p = some a := by
  cases h : items.find? p <;> simp

/-- A `find?` miss routes to `KeyError`. -/
theorem firstMatch_err {α : Type} (p : α → Bool) (items : List α)
    (h : ∀ b ∈ items, p b = false) :
    (match items.find? p with
      | some abi => Except.ok abi
      | Option.none => Except.error LookupErr.keyError) =
      Except.error (α := α) LookupErr.keyError := by
  rw [List.find?_eq_none.mpr ?_]
  intro b hb
  rw [h b hb]
  exact Bool.false_ne_true

/-- C8: polymorphic-key lookup in `ABIList`: a string key containing `"("`
matches the first entry with exactly that selector; a `0x`-prefixed string
is decoded with `HexBytes` and handled as raw bytes; a bytes key (with a
configured hash function) matches the first entry whose hashed selector
agrees with the key on the first `selector_id_size` bytes; any other
string matches the first entry with that name (declaration order resolves
duplicates); every miss is a `KeyError`. -/
theorem abilist_lookup_spec {α : Type} (sel nm : α → String) (l : ABIList α)
    (key : String) (bkey bs : List Nat) (f : String → List Nat) (a : α) :
    (containsSub key.data "(".data = true →
      (ABIList.getitem_str sel nm l key = .ok a ↔
        sel a = key ∧ ∃ l1 l2, l.items = l1 ++ a :: l2 ∧ ∀ b ∈ l1, sel b ≠ key)) ∧
    (containsSub key.data "(".data = true → (∀ b ∈ l.items, sel b ≠ key) →
      ABIList.getitem_str sel nm l key = .error .keyError) ∧
    (containsSub key.data "(".data = false → is0xPrefixed key = true →
      hexBytes key = some bs →
      ABIList.getitem_str sel nm l key = ABIList.getitem_bytes sel l bs) ∧
    (containsSub key.data "(".data = false → is0xPrefixed key = false →
      (ABIList.getitem_str sel nm l key = .ok a ↔
        nm a = key ∧ ∃ l1 l2, l.items = l1 ++ a :: l2 ∧ ∀ b ∈ l1, nm b ≠ key)) ∧
    (containsSub key.data "(".data = false → is0xPrefixed key = false →
      (∀ b ∈ l.items, nm b ≠ key) →
      ABIList.getitem_str sel nm l key = .error .keyError) ∧
    (l.selector_hash_fn = some f →
      (ABIList.getitem_bytes sel l bkey = .ok a ↔
        (f (sel a)).take l.selector_id_size = bkey.take l.selector_id_size ∧
        ∃ l1 l2, l.items = l1 ++ a :: l2 ∧
          ∀ b ∈ l1, (f (sel b)).take l.selector_id_size ≠ bkey.take l.selector_id_size)) ∧
    (l.selector_hash_fn = some f →
      (∀ b ∈ l.items, (f (sel b)).take l.selector_id_size ≠ bkey.take l.selector_id_size) →
      ABIList.getitem_bytes sel l bkey = .error .keyError) ∧
    (l.selector_hash_fn = Option.none →
      ABIList.getitem_bytes sel l bkey = .error .keyError) := by
  have hbytes_ok : l.selector_hash_fn = some f →
      (ABIList.getitem_bytes sel l bkey = .ok a ↔
        (f (sel a)).take l.selector_id_size = bkey.take l.selector_id_size ∧
        ∃ l1 l2, l.items = l1 ++ a :: l2 ∧
          ∀ b ∈ l1, (f (sel b)).take l.selector_id_size ≠ bkey.take l.selector_id_size) := by
    intro hfn
    rw [ABIList.getitem_bytes, hfn]
    rw [firstMatch_ok, find?_eq_some_first]
    simp only [beq_iff_eq, ne_eq]
    constructor
    · rintro ⟨hpa, l1, l2, hd, hall⟩
      refine ⟨hpa, l1, l2, hd, fun b hb => ?_⟩
      have := hall b hb
      simpa using this
    · rintro ⟨hpa, l1, l2, hd, hall⟩
      refine ⟨hpa, l1, l2, hd, fun b hb => ?_⟩
      simpa using hall b hb
  refine ⟨?_, ?_, ?_, ?_, ?_, hbytes_ok, ?_, ?_⟩
  · intro hparen
    rw [ABIList.getitem_str, if_pos hparen, firstMatch_ok, find?_eq_some_first]
    simp only [beq_iff_eq, ne_eq]
    constructor
    · rintro ⟨hpa, l1, l2, hd, hall⟩
      refine ⟨hpa, l1, l2, hd, fun b hb => ?_⟩
      simpa using hall b hb
    · rintro ⟨hpa, l1, l2, hd, hall⟩
      refine ⟨hpa, l1, l2, hd, fun b hb => ?_⟩
      simpa using hall b hb
  · intro hparen hmiss
    rw [ABIList.getitem_str, if_pos hparen]
    refine firstMatch_err _ _ fun b hb => ?_
    simpa using hmiss b hb
  · intro hparen h0x hhex
    rw [ABIList.getitem_str, if_neg (by rw [hparen]; exact Bool.false_ne_true),
      if_pos h0x, hhex]
  · intro hparen h0x
    rw [ABIList.getitem_str, if_neg (by rw [hparen]; exact Bool.false_ne_true),
      if_neg (by rw [h0x]; exact Bool.false_ne_true), firstMatch_ok, find?_eq_some_first]
    simp only [beq_iff_eq, ne_eq]
    constructor
    · rintro ⟨hpa, l1, l2, hd, hall⟩
      refine ⟨hpa, l1, l2, hd, fun b hb => ?_⟩
      simpa using hall b hb
    · rintro ⟨hpa, l1, l2, hd, hall⟩
      refine ⟨hpa, l1, l2, hd, fun b hb => ?_⟩
      simpa using hall b hb
  · intro hparen h0x hmiss
    rw [ABIList.getitem_str, if_neg (by rw [hparen]; exact Bool.false_ne_true),
      if_neg (by rw [h0x]; exact Bool.false_ne_true)]
    refine firstMatch_err _ _ fun b hb => ?_
    simpa using hmiss b hb
  · intro hfn hmiss
    rw [ABIList.getitem_bytes, hfn]
    refine firstMatch_err _ _ fun b hb => ?_
    simpa using hmiss b hb
  · intro hnone
    rw [ABIList.getitem_bytes, hnone]

/-- Witness for C8 on a two-method container: lookup by full signature, by
bare name, and by hashed bytes. -/
theorem abilist_lookup_spec_witness :
    ABIList.getitem_str MethodABI.selector MethodABI.name
        ⟨[⟨"foo", "nonpayable", [], []⟩, ⟨"bar", "nonpayable", [], []⟩], 4,
          some (fun s => utf8Bytes s)⟩ "bar()" =
      .ok ⟨"bar", "nonpayable", [], []⟩ ∧
    ABIList.getitem_str MethodABI.selector MethodABI.name
        ⟨[⟨"foo", "nonpayable", [], []⟩, ⟨"bar", "nonpayable", [], []⟩], 4,
          some (fun s => utf8Bytes s)⟩ "bar" =
      .ok ⟨"bar", "nonpayable", [], []⟩ ∧
    ABIList.getitem_bytes MethodABI.selector
        ⟨[⟨"foo", "nonpayable", [], []⟩, ⟨"bar", "nonpayable", [], []⟩], 4,
          some (fun s => utf8Bytes s)⟩ (utf8Bytes "foo()") =
      .ok ⟨"foo", "nonpayable", [], []⟩ := by
  refine ⟨?_, ?_, ?_⟩
  · exact ((abilist_lookup_spec MethodABI.selector MethodABI.name
        ⟨[⟨"foo", "nonpayable", [], []⟩, ⟨"bar", "nonpayable", [], []⟩], 4,
          some (fun s => utf8Bytes s)⟩ "bar()" [] [] (fun s => utf8Bytes s)
        ⟨"bar", "nonpayable", [], []⟩).1 (by decide)).mpr
      ⟨rfl, [⟨"foo", "nonpayable", [], []⟩], [], rfl, by
        intro b hb
        rw [List.mem_singleton] at hb
        subst hb
        decide⟩
  · exact ((abilist_lookup_spec MethodABI.selector MethodABI.name
        ⟨[⟨"foo", "nonpayable", [], []⟩, ⟨"bar", "nonpayable", [], []⟩], 4,
          some (fun s => utf8Bytes s)⟩ "bar" [] [] (fun s => utf8Bytes s)
        ⟨"bar", "nonpayable", [], []⟩).2.2.2.1 (by decide) (by decide)).mpr
      ⟨rfl, [⟨"foo", "nonpayable", [], []⟩], [], rfl, by
        intro b hb
        rw [List.mem_singleton] at hb
        subst hb
        decide⟩
  · exact ((abilist_lookup_spec MethodABI.selector MethodABI.name
        ⟨[⟨"foo", "nonpayable", [], []⟩, ⟨"bar", "nonpayable", [], []⟩], 4,
          some (fun s => utf8Bytes s)⟩ "x" (utf8Bytes "foo()") []
        (fun s => utf8Bytes s) ⟨"foo", "nonpayable", [], []⟩).2.2.2.2.2.1 rfl).mpr
      ⟨rfl, [], [⟨"bar", "nonpayable", [], []⟩], rfl, by
        intro b hb
        exact absurd hb (List.not_mem_nil b)⟩

/-! Infrastructure for the signature round trip (C4). -/

theorem string_mk_append (a b : List Char) :
    String.mk a ++ String.mk b = String.mk (a ++ b) := rfl

theorem intercalate_go_data (s : String) : ∀ (as : List String) (acc : String),
    (String.intercalate.go acc s as).data =
      acc.data ++ (as.map fun a => s.data ++ a.data).flatten := by
  intro as
  induction as with
  | nil => intro acc; simp [String.intercalate.go]
  | cons a as ih =>
    intro acc
    rw [String.intercalate.go, ih]
    simp [String.data_append]

theorem intercalate_data (s : String) (x : String) (xs : List String) :
    (String.intercalate s (x :: xs)).data =
      x.data ++ (xs.map fun a => s.data ++ a.data).flatten := by
  have h : String.intercalate s (x :: xs) = String.intercalate.go x s xs := rfl
  rw [h, intercalate_go_data]

/-- Unpacking of the inert-character test. -/
theorem goodChar_spec {c : Char} (h : goodChar c = true) :
    c ≠ ' ' ∧ c ≠ ',' ∧ c ≠ '(' ∧ c ≠ ')' ∧ c ≠ '-' ∧ c ≠ '>' ∧
      isPyWhitespace c = false := by
  unfold goodChar at h
  simp only [Bool.not_eq_eq_eq_not, Bool.not_true, Bool.or_eq_false_iff,
    decide_eq_false_iff_not] at h
  obtain ⟨⟨⟨⟨⟨⟨h1, h2⟩, h3⟩, h4⟩, h5⟩, h6⟩, h7⟩ := h
  exact ⟨h1, h2, h3, h4, h5, h6, h7⟩

/-- The result of the signature-input loop is independent of the fuel, as
long as the fuel covers the character count. -/
theorem sigLoopF_fuel_eq (n : Nat) : ∀ (chars : List Char), chars.length ≤ n →
    ∀ (fuel fuel' : Nat), chars.length ≤ fuel → chars.length ≤ fuel' →
    ∀ (ty ix nm : String) (w : Bool) (acc : List (String × String × String)),
      sigLoopF fuel chars ty ix nm w acc = sigLoopF fuel' chars ty ix nm w acc := by
  induction n with
  | zero =>
    intro chars hc fuel fuel' h1 h2 ty ix nm w acc
    have hnil : chars = [] := List.eq_nil_of_length_eq_zero (Nat.le_zero.mp hc)
    subst hnil
    cases fuel <;> cases fuel' <;> rfl
  | succ n ih =>
    intro chars hc fuel fuel' h1 h2 ty ix nm w acc
    cases chars with
    | nil => cases fuel <;> cases fuel' <;> rfl
    | cons c rest =>
      cases fuel with
      | zero => simp at h1
      | succ f =>
        cases fuel' with
        | zero => simp at h2
        | succ f' =>
          simp only [List.length_cons, Nat.succ_le_succ_iff] at hc h1 h2
          conv_lhs => rw [sigLoopF]
          conv_rhs => rw [sigLoopF]
          by_cases hcomma : c = ','
          · simp only [if_pos hcomma]
            cases hskip : skipCommaSpaces rest with
            | none => rfl
            | some rest' =>
              have hr : rest'.length ≤ rest.length := skipCommaSpaces_length hskip
              exact ih rest' (hr.trans hc) f f' (hr.trans h1) (hr.trans h2) _ _ _ _ _
          · simp only [if_neg hcomma]
            by_cases hspace : c = ' '
            · simp only [if_pos hspace]
              by_cases hix : "indexed ".data.isPrefixOf rest = true
              · simp only [if_pos hix]
                have hr : (rest.drop 8).length ≤ rest.length := by
                  rw [List.length_drop]
                  omega
                exact ih (rest.drop 8) (hr.trans hc) f f' (hr.trans h1) (hr.trans h2) _ _ _ _ _
              · simp only [if_neg hix]
                exact ih rest hc f f' h1 h2 _ _ _ _ _
            · simp only [if_neg hspace]
              by_cases hparen : c = '('
              · simp only [if_pos hparen]
                cases ht : consumeTuple rest with
                | none => rfl
                | some p =>
                  obtain ⟨tk, rest'⟩ := p
                  have hr : rest'.length ≤ rest.length :=
                    Nat.le_of_lt (consumeTuple_length ht)
                  exact ih rest' (hr.trans hc) f f' (hr.trans h1) (hr.trans h2) _ _ _ _ _
              · simp only [if_neg hparen]
                cases w with
                | true =>
                  simp only [if_pos rfl]
                  exact ih rest hc f f' h1 h2 _ _ _ _ _
                | false =>
                  simp only [Bool.false_eq_true, if_neg (Bool.false_ne_true)]
                  exact ih rest hc f f' h1 h2 _ _ _ _ _

/-- Evaluate the loop at any sufficient fuel. -/
theorem sigLoop_eq_fuel (chars : List Char) (fuel : Nat) (h : chars.length ≤ fuel)
    (ty ix nm : String) (w : Bool) (acc : List (String × String × String)) :
    sigLoop chars ty ix nm w acc = sigLoopF fuel chars ty ix nm w acc :=
  sigLoopF_fuel_eq chars.length chars le_rfl chars.length fuel le_rfl h ty ix nm w acc

/-- One inert character: accumulated into `type_` or `name` according to
`working_on`. -/
theorem sigLoop_regular (c : Char) (hg : goodChar c = true) (rest : List Char)
    (ty ix nm : String) (w : Bool) (acc : List (String × String × String)) :
    sigLoop (c :: rest) ty ix nm w acc =
      if w then sigLoop rest (ty.push c) ix nm w acc
      else sigLoop rest ty ix (nm.push c) w acc := by
  obtain ⟨h1, h2, h3, _, _, _, _⟩ := goodChar_spec hg
  show sigLoopF (rest.length + 1) (c :: rest) ty ix nm w acc = _
  rw [sigLoopF]
  simp only [if_neg h2, if_neg h1, if_neg h3]
  cases w with
  | true => simp only [if_pos rfl, if_pos rfl]; rfl
  | false =>
    simp only [Bool.false_eq_true, if_neg Bool.false_ne_true]
    rfl

/-- A space not followed by `"indexed "`: switch to name accumulation. -/
theorem sigLoop_space (rest : List Char) (ty ix nm : String) (w : Bool)
    (acc : List (String × String × String))
    (hnix : "indexed ".data.isPrefixOf rest = false) :
    sigLoop (' ' :: rest) ty ix nm w acc = sigLoop rest ty ix nm false acc := by
  show sigLoopF (rest.length + 1) (' ' :: rest) ty ix nm w acc = _
  rw [sigLoopF]
  simp only [if_neg (by decide : ¬(' ' = ',')), if_pos rfl, hnix, Bool.false_eq_true,
    if_neg Bool.false_ne_true]
  rfl

/-- A space followed by `"indexed "`: record the indexed marker and skip
those eight characters. -/
theorem sigLoop_space_indexed (rest : List Char) (ty ix nm : String) (w : Bool)
    (acc : List (String × String × String)) :
    sigLoop (' ' :: ("indexed ".data ++ rest)) ty ix nm w acc =
      sigLoop rest ty "indexed" nm false acc := by
  show sigLoopF (("indexed ".data ++ rest).length + 1)
    (' ' :: ("indexed ".data ++ rest)) ty ix nm w acc = _
  rw [sigLoopF]
  have hpre : "indexed ".data.isPrefixOf ("indexed ".data ++ rest) = true :=
    List.isPrefixOf_iff_prefix.mpr (List.prefix_append _ _)
  simp only [if_neg (by decide : ¬(' ' = ',')), if_pos rfl, hpre, if_pos rfl]
  have hlen8 : ("indexed ".data).length = 8 := rfl
  have hdrop := List.drop_left "indexed ".data rest
  rw [hlen8] at hdrop
  rw [hdrop]
  exact (sigLoop_eq_fuel rest _ (by simp; omega) ty "indexed" nm false acc).symm

/-- A comma: flush the current entry, skip the following space, restart. -/
theorem sigLoop_comma (x : Char) (hx : x ≠ ' ') (rest2 : List Char)
    (ty ix nm : String) (w : Bool) (acc : List (String × String × String)) :
    sigLoop (',' :: ' ' :: x :: rest2) ty ix nm w acc =
      sigLoop (x :: rest2) "" "" "" true (acc ++ [(ty, ix, nm)]) := by
  show sigLoopF ((' ' :: x :: rest2).length + 1) (',' :: ' ' :: x :: rest2) ty ix nm w acc = _
  rw [sigLoopF]
  have hskip : skipCommaSpaces (' ' :: x :: rest2) = some (x :: rest2) := by
    rw [skipCommaSpaces, if_pos rfl, skipCommaSpaces, if_neg hx]
  simp only [if_pos rfl, hskip]
  exact (sigLoop_eq_fuel (x :: rest2) _ (by simp) "" "" "" true _).symm

/-- The tuple loop consumes through the first closing parenthesis. -/
theorem consumeTuple_closed (inner : List Char) (hin : ')' ∉ inner) :
    ∀ (tail : List Char), consumeTuple (inner ++ ')' :: tail) = some (inner ++ [')'], tail) := by
  induction inner with
  | nil => intro tail; simp [consumeTuple]
  | cons c cs ih =>
    intro tail
    have hc : c ≠ ')' := fun h => hin (h ▸ List.mem_cons_self c cs)
    rw [List.cons_append, consumeTuple, if_neg hc,
      ih (fun h => hin (List.mem_cons_of_mem c h)) tail]
    rfl

/-- An opening parenthesis: the whole parenthesised group replaces the
type accumulator. -/
theorem sigLoop_tuple (inner : List Char) (hin : ')' ∉ inner) (tail : List Char)
    (ty ix nm : String) (w : Bool) (acc : List (String × String × String)) :
    sigLoop ('(' :: (inner ++ ')' :: tail)) ty ix nm w acc =
      sigLoop tail ("(" ++ String.mk (inner ++ [')'])) ix nm w acc := by
  show sigLoopF ((inner ++ ')' :: tail).length + 1)
    ('(' :: (inner ++ ')' :: tail)) ty ix nm w acc = _
  rw [sigLoopF]
  simp only [if_neg (by decide : ¬('(' = ',')), if_neg (by decide : ¬('(' = ' ')),
    if_pos rfl, consumeTuple_closed inner hin tail]
  exact (sigLoop_eq_fuel tail _ (by simp; omega) _ ix nm w acc).symm

/-- A run of inert characters while accumulating the type. -/
theorem sigLoop_typechars (tcs : List Char) (h : ∀ c ∈ tcs, goodChar c = true) :
    ∀ (tail : List Char) (ty ix nm : String) (acc : List (String × String × String)),
    sigLoop (tcs ++ tail) ty ix nm true acc =
      sigLoop tail (ty ++ String.mk tcs) ix nm true acc := by
  induction tcs with
  | nil =>
    intro tail ty ix nm acc
    simp only [List.nil_append]
    have : ty ++ String.mk [] = ty := String.append_empty ty
    rw [this]
  | cons c tcs ih =>
    intro tail ty ix nm acc
    rw [List.cons_append, sigLoop_regular c (h c (List.mem_cons_self c tcs)), if_pos rfl,
      ih (fun x hx => h x (List.mem_cons_of_mem c hx))]
    have : ty.push c ++ String.mk tcs = ty ++ String.mk (c :: tcs) := by
      have h1 : ty.push c = ty ++ String.mk [c] := rfl
      rw [h1, String.append_assoc, string_mk_append]
      rfl
    rw [this]

/-- A run of inert characters while accumulating the name. -/
theorem sigLoop_namechars (ncs : List Char) (h : ∀ c ∈ ncs, goodChar c = true) :
    ∀ (tail : List Char) (ty ix nm : String) (acc : List (String × String × String)),
    sigLoop (ncs ++ tail) ty ix nm false acc =
      sigLoop tail ty ix (nm ++ String.mk ncs) false acc := by
  induction ncs with
  | nil =>
    intro tail ty ix nm acc
    simp only [List.nil_append]
    have : nm ++ String.mk [] = nm := String.append_empty nm
    rw [this]
  | cons c ncs ih =>
    intro tail ty ix nm acc
    rw [List.cons_append, sigLoop_regular c (h c (List.mem_cons_self c ncs)),
      if_neg Bool.false_ne_true, ih (fun x hx => h x (List.mem_cons_of_mem c hx))]
    have : nm.push c ++ String.mk ncs = nm ++ String.mk (c :: ncs) := by
      have h1 : nm.push c = nm ++ String.mk [c] := rfl
      rw [h1, String.append_assoc, string_mk_append]
      rfl
    rw [this]

/-- A wellformed name followed by nothing or a comma can never trip the
`"indexed "` prefix test. -/
theorem not_indexed_lead (nmData : List Char)
    (h2 : ∀ c ∈ nmData, goodChar c = true) (tail : List Char)
    (htail : tail = [] ∨ ∃ r, tail = ',' :: r) :
    "indexed ".data.isPrefixOf (nmData ++ tail) = false := by
  by_contra hcon
  rw [Bool.not_eq_false, List.isPrefixOf_iff_prefix] at hcon
  obtain ⟨u, hu⟩ := hcon
  by_cases hlen : 8 ≤ nmData.length
  · have e1 : (nmData ++ tail)[7]? = nmData[7]? := by
      rw [List.getElem?_append]
      rw [if_pos (by omega)]
    have e2 : ("indexed ".data ++ u)[7]? = some ' ' := by
      rw [List.getElem?_append, if_pos (by decide)]
      rfl
    rw [← hu, e2] at e1
    have hmem : ' ' ∈ nmData := List.getElem?_mem e1.symm
    have := h2 ' ' hmem
    exact absurd this (by decide)
  · push_neg at hlen
    have e1 : (nmData ++ tail)[nmData.length]? = tail[0]? := by
      rw [List.getElem?_append_right le_rfl]
      simp
    have e2 : ("indexed ".data ++ u)[nmData.length]? = "indexed ".data[nmData.length]? := by
      rw [List.getElem?_append, if_pos (by simpa using hlen)]
    rw [← hu, e2] at e1
    rcases htail with ht | ⟨r, ht⟩
    · subst ht
      rw [List.getElem?_eq_getElem (by simpa using hlen)] at e1
      simp at e1
    · subst ht
      simp only [List.getElem?_cons_zero] at e1
      generalize hk : nmData.length = k at e1 hlen
      interval_cases k <;> exact absurd e1 (by decide)

/-- Unpacking of `goodIdent`. -/
theorem goodIdent_spec {s : String} (h : goodIdent s = true) :
    s.data ≠ [] ∧ ∀ c ∈ s.data, goodChar c = true := by
  unfold goodIdent at h
  rw [Bool.and_eq_true] at h
  obtain ⟨h1, h2⟩ := h
  refine ⟨?_, fun c hc => List.all_eq_true.mp h2 c hc⟩
  intro hd
  rw [decide_eq_true_iff] at h1
  exact h1 (String.ext hd)

/-- Unpacking of `wfInput`. -/
theorem wfInput_spec {t : ABIType} (h : wfInput t = true) :
    ∃ nm, t.name = some nm ∧ goodIdent nm = true ∧
      ((∃ s, t.type = Sum.inl s ∧ t.components = Option.none ∧ goodIdent s = true) ∨
       (∃ cs, t.type = Sum.inl "tuple" ∧ t.components = some cs ∧ cs ≠ [] ∧
         ∀ c ∈ cs, wfComp c = true)) := by
  unfold wfInput at h
  rw [Bool.and_eq_true] at h
  obtain ⟨hn, hrest⟩ := h
  cases t with
  | mk name ty comps ix =>
    simp only [ABIType.name] at hn
    cases name with
    | none => exact absurd hn (by simp)
    | some nm =>
      refine ⟨nm, rfl, hn, ?_⟩
      simp only [ABIType.type, ABIType.components] at hrest ⊢
      cases ty with
      | inr t' =>
        cases comps <;> simp at hrest
      | inl s =>
        cases comps with
        | none => exact Or.inl ⟨s, rfl, rfl, hrest⟩
        | some cs =>
          simp only [Bool.and_eq_true, decide_eq_true_iff] at hrest
          obtain ⟨⟨hs, hne⟩, hall⟩ := hrest
          subst hs
          refine Or.inr ⟨cs, rfl, rfl, ?_, fun c hc => List.all_eq_true.mp hall c hc⟩
          intro hcs
          subst hcs
          simp at hne

/-- Unpacking of `wfComp`. -/
theorem wfComp_spec {t : ABIType} (h : wfComp t = true) :
    ∃ s, t.type = Sum.inl s ∧ t.components = Option.none ∧ goodIdent s = true := by
  unfold wfComp at h
  cases t with
  | mk name ty comps ix =>
    simp only [ABIType.type, ABIType.components] at h ⊢
    cases ty with
    | inr t' => cases comps <;> simp at h
    | inl s =>
      cases comps with
      | none => exact ⟨s, rfl, rfl, h⟩
      | some cs => simp at h

theorem canonicalList_eq_map : ∀ (l : List ABIType),
    canonicalList l = l.map ABIType.canonical_type := by
  intro l
  induction l with
  | nil => rfl
  | cons t ts ih => rw [canonicalList, ih, List.map_cons]

/-- Canonical type of an elementary string type. -/
theorem canonical_simple (n : Option String) (s : String) (ix : Bool) :
    (ABIType.mk n (Sum.inl s) Option.none ix).canonical_type = s := rfl

/-- Canonical type of a plain `"tuple"` with components. -/
theorem canonical_tuple (n : Option String) (c0 : ABIType) (cs : List ABIType) (ix : Bool) :
    (ABIType.mk n (Sum.inl "tuple") (some (c0 :: cs)) ix).canonical_type =
      "(" ++ String.intercalate "," ((c0 :: cs).map ABIType.canonical_type) ++ ")" := by
  have hcond : (containsSub "tuple".data "tuple".data &&
      pyTruthyComps (some (c0 :: cs))) = true := rfl
  rw [ABIType.canonical_type, if_pos hcond, canonicalList_eq_map]
  rw [if_neg (by decide : ¬(containsSub "tuple".data "[".data = true))]
  exact String.append_empty _

/-- Characters of a comma-join of inert strings are inert or commas. -/
theorem mem_intercalate_comma {xs : List String} {c : Char}
    (hc : c ∈ (String.intercalate "," xs).data)
    (hxs : ∀ x ∈ xs, ∀ a ∈ x.data, goodChar a = true) :
    goodChar c = true ∨ c = ',' := by
  cases xs with
  | nil => simp [String.intercalate] at hc
  | cons x rest =>
    rw [intercalate_data] at hc
    rcases List.mem_append.mp hc with hx | hfl
    · exact Or.inl (hxs x (List.mem_cons_self x rest) c hx)
    · rw [List.mem_flatten] at hfl
      obtain ⟨l, hl, hcl⟩ := hfl
      rw [List.mem_map] at hl
      obtain ⟨a, ha, hae⟩ := hl
      rw [← hae] at hcl
      rcases List.mem_append.mp hcl with hsep | hic
      · right
        simpa using hsep
      · exact Or.inl (hxs a (List.mem_cons_of_mem x ha) c hic)

/-- Canonical types of wellformed tuple components are inert strings. -/
theorem tuple_components_chars {cs : List ABIType} (h : ∀ c ∈ cs, wfComp c = true) :
    ∀ x ∈ cs.map ABIType.canonical_type, ∀ a ∈ x.data, goodChar a = true := by
  intro x hx a ha
  rw [List.mem_map] at hx
  obtain ⟨c, hc, hce⟩ := hx
  obtain ⟨s, hty, hcomps, hgood⟩ := wfComp_spec (h c hc)
  have hcanon : c.canonical_type = s := by
    cases c with
    | mk n ty' comps' ix' =>
      simp only [ABIType.type] at hty
      simp only [ABIType.components] at hcomps
      subst hty
      subst hcomps
      exact canonical_simple n s ix'
  rw [← hce, hcanon] at ha
  exact (goodIdent_spec hgood).2 a ha

/-- The canonical type of a wellformed input is nonempty. -/
theorem canonical_wf_ne_empty {t : ABIType} (hwf : wfInput t = true) :
    t.canonical_type ≠ "" := by
  obtain ⟨nm, hname, hnmgood, hshape⟩ := wfInput_spec hwf
  cases t with
  | mk name ty comps ix =>
    rcases hshape with ⟨s, hty, hcomps, hgood⟩ | ⟨cs, hty, hcomps, hne, hall⟩
    · simp only [ABIType.type] at hty
      simp only [ABIType.components] at hcomps
      subst hty
      subst hcomps
      rw [canonical_simple]
      intro he
      exact (goodIdent_spec hgood).1 (by rw [he])
    · simp only [ABIType.type] at hty
      simp only [ABIType.components] at hcomps
      subst hty
      subst hcomps
      cases cs with
      | nil => exact absurd rfl hne
      | cons c0 cs' =>
        rw [canonical_tuple]
        intro he
        have := congrArg String.data he
        simp [String.data_append] at this

/-- Accumulating the canonical type of a wellformed input from the initial
loop state. -/
theorem sigLoop_canonchars (t : ABIType) (hwf : wfInput t = true)
    (rest : List Char) (acc : List (String × String × String)) :
    sigLoop (t.canonical_type.data ++ rest) "" "" "" true acc =
      sigLoop rest t.canonical_type "" "" true acc := by
  obtain ⟨nm, hname, hnmgood, hshape⟩ := wfInput_spec hwf
  cases t with
  | mk name ty comps ix =>
    rcases hshape with ⟨s, hty, hcomps, hgood⟩ | ⟨cs, hty, hcomps, hne, hall⟩
    · simp only [ABIType.type] at hty
      simp only [ABIType.components] at hcomps
      subst hty
      subst hcomps
      rw [canonical_simple]
      rw [sigLoop_typechars s.data (goodIdent_spec hgood).2 rest "" "" "" acc]
      have hty0 : "" ++ String.mk s.data = s := rfl
      rw [hty0]
    · simp only [ABIType.type] at hty
      simp only [ABIType.components] at hcomps
      subst hty
      subst hcomps
      cases cs with
      | nil => exact absurd rfl hne
      | cons c0 cs' =>
        rw [canonical_tuple]
        have hchars := @tuple_components_chars (c0 :: cs') hall
        have hnoclose : ')' ∉ (String.intercalate "," ((c0 :: cs').map ABIType.canonical_type)).data := by
          intro hmem
          rcases mem_intercalate_comma hmem hchars with hg | hcomma
          · exact absurd hg (by decide)
          · exact absurd hcomma (by decide)
        have hdata :
            ("(" ++ String.intercalate "," ((c0 :: cs').map ABIType.canonical_type) ++ ")").data
              ++ rest =
            '(' :: ((String.intercalate "," ((c0 :: cs').map ABIType.canonical_type)).data
              ++ ')' :: rest) := by
          simp [String.data_append]
        rw [hdata,
          sigLoop_tuple _ hnoclose rest "" "" "" true acc]
        have hty2 :
            "(" ++ String.mk
                ((String.intercalate "," ((c0 :: cs').map ABIType.canonical_type)).data ++ [')']) =
            "(" ++ String.intercalate "," ((c0 :: cs').map ABIType.canonical_type) ++ ")" := by
          rw [← string_mk_append, String.append_assoc]
        rw [hty2]

/-- Processing one full wellformed input piece (the text contributed by
one input in the display signature) from the initial per-piece state. -/
theorem sigLoop_piece (ev : Bool) (t : ABIType) (hwf : wfInput t = true)
    (tail : List Char) (htail : tail = [] ∨ ∃ r, tail = ',' :: r)
    (acc : List (String × String × String)) :
    sigLoop ((if ev then eventABITypeSignature t else t.signature).data ++ tail)
      "" "" "" true acc =
    sigLoop tail t.canonical_type (if ev && t.indexed then "indexed" else "")
      (t.name.getD "") false acc := by
  obtain ⟨nm, hname, hnmgood, hshape⟩ := wfInput_spec hwf
  obtain ⟨hnmne, hnmchars⟩ := goodIdent_spec hnmgood
  have hnm' : nm ≠ "" := fun he => hnmne (by rw [he])
  have htruthy : pyTruthyName t.name = true := by
    rw [hname]
    simpa [pyTruthyName] using hnm'
  have hgetd : t.name.getD "" = nm := by rw [hname]; rfl
  cases hix : ev && t.indexed with
  | false =>
    have hsig : (if ev then eventABITypeSignature t else t.signature) =
        t.canonical_type ++ " " ++ nm := by
      cases ev with
      | false =>
        show t.signature = _
        simp [ABIType.signature, htruthy, hgetd]
      | true =>
        show eventABITypeSignature t = _
        simp only [Bool.true_and] at hix
        simp [eventABITypeSignature, hix, htruthy, hgetd]
    rw [hsig]
    have hdata : (t.canonical_type ++ " " ++ nm).data ++ tail =
        t.canonical_type.data ++ (' ' :: (nm.data ++ tail)) := by
      simp [String.data_append]
    rw [hdata, sigLoop_canonchars t hwf,
      sigLoop_space _ _ _ _ _ _ (not_indexed_lead nm.data hnmchars tail htail),
      sigLoop_namechars nm.data hnmchars tail _ _ _ _, hgetd]
    rfl
  | true =>
    have hev : ev = true := by
      cases ev
      · simp at hix
      · rfl
    have hidx : t.indexed = true := by
      rw [hev] at hix
      simpa using hix
    have hsig : (if ev then eventABITypeSignature t else t.signature) =
        t.canonical_type ++ " indexed" ++ " " ++ nm := by
      rw [hev]
      show eventABITypeSignature t = _
      simp [eventABITypeSignature, hidx, htruthy, hgetd]
    rw [hsig]
    have hdata : (t.canonical_type ++ " indexed" ++ " " ++ nm).data ++ tail =
        t.canonical_type.data ++ (' ' :: ("indexed ".data ++ (nm.data ++ tail))) := by
      simp [String.data_append]
    rw [hdata, sigLoop_canonchars t hwf,
      sigLoop_space_indexed (nm.data ++ tail) _ _ _ _ _,
      sigLoop_namechars nm.data hnmchars tail _ _ _ _, hgetd]
    rfl

/-- The display text of one wellformed input decomposes as canonical type,
optional indexed marker, space, and name. -/
theorem piece_sig_decomp (ev : Bool) (t : ABIType) (hwf : wfInput t = true) :
    ∃ nm, t.name = some nm ∧ goodIdent nm = true ∧
      (if ev then eventABITypeSignature t else t.signature) =
        t.canonical_type ++ (if ev && t.indexed then " indexed" else "") ++ " " ++ nm := by
  obtain ⟨nm, hname, hnmgood, hshape⟩ := wfInput_spec hwf
  obtain ⟨hnmne, hnmchars⟩ := goodIdent_spec hnmgood
  have hnm' : nm ≠ "" := fun he => hnmne (by rw [he])
  have htruthy : pyTruthyName t.name = true := by
    rw [hname]
    simpa [pyTruthyName] using hnm'
  have hgetd : t.name.getD "" = nm := by rw [hname]; rfl
  refine ⟨nm, hname, hnmgood, ?_⟩
  cases ev with
  | false =>
    show t.signature = _
    simp [ABIType.signature, htruthy, hgetd]
  | true =>
    show eventABITypeSignature t = _
    cases hidx : t.indexed with
    | false => simp [eventABITypeSignature, hidx, htruthy, hgetd]
    | true => simp [eventABITypeSignature, hidx, htruthy, hgetd]

/-- The canonical type of a wellformed input starts with a non-space
character. -/
theorem canonical_data_head (t : ABIType) (hwf : wfInput t = true) :
    ∃ c cs, t.canonical_type.data = c :: cs ∧ c ≠ ' ' := by
  obtain ⟨nm, hname, hnmgood, hshape⟩ := wfInput_spec hwf
  cases t with
  | mk name ty comps ix =>
    rcases hshape with ⟨s, hty, hcomps, hgood⟩ | ⟨cs, hty, hcomps, hne, hall⟩
    · simp only [ABIType.type] at hty
      simp only [ABIType.components] at hcomps
      subst hty
      subst hcomps
      rw [canonical_simple]
      obtain ⟨hne', hchars⟩ := goodIdent_spec hgood
      cases hd : s.data with
      | nil => exact absurd hd hne'
      | cons c cs' =>
        exact ⟨c, cs', rfl, (goodChar_spec (hchars c (by rw [hd]; simp))).1⟩
    · simp only [ABIType.type] at hty
      simp only [ABIType.components] at hcomps
      subst hty
      subst hcomps
      cases cs with
      | nil => exact absurd rfl hne
      | cons c0 cs' =>
        rw [canonical_tuple]
        have hd : ("(" ++ String.intercalate ","
            ((c0 :: cs').map ABIType.canonical_type) ++ ")").data =
            '(' :: ((String.intercalate ","
              ((c0 :: cs').map ABIType.canonical_type)).data ++ [')']) := by
          simp [String.data_append]
        exact ⟨'(', _, hd, by decide⟩

/-- The display text of a wellformed input starts with a non-space
character. -/
theorem piece_data_head (ev : Bool) (t : ABIType) (hwf : wfInput t = true) :
    ∃ c cs, (if ev then eventABITypeSignature t else t.signature).data = c :: cs ∧
      c ≠ ' ' := by
  obtain ⟨nm, hname, hnmgood, hsig⟩ := piece_sig_decomp ev t hwf
  obtain ⟨c, cs, hdata, hc⟩ := canonical_data_head t hwf
  refine ⟨c, cs ++ ((if ev && t.indexed then " indexed" else "") ++ " " ++ nm).data, ?_, hc⟩
  rw [hsig, String.data_append, String.data_append, String.data_append, hdata]
  simp

theorem intercalate_cons_cons (s x y : String) (r : List String) :
    (String.intercalate s (x :: y :: r)).data =
      x.data ++ (s.data ++ (String.intercalate s (y :: r)).data) := by
  rw [intercalate_data, intercalate_data]
  simp

/-- Comma-join over a mapped list, peeling one element. -/
theorem intercalate_map_cons_cons (s : String) (f : ABIType → String)
    (a b : ABIType) (r : List ABIType) :
    (String.intercalate s ((a :: b :: r).map f)).data =
      (f a).data ++ (s.data ++ (String.intercalate s ((b :: r).map f)).data) := by
  simp only [List.map_cons, intercalate_cons_cons]

/-- Parsing the comma-joined display text of a nonempty wellformed input
list appends one `(type, indexed, name)` triple per input. -/
theorem sigLoop_inputs (ev : Bool) : ∀ (ts : List ABIType), ts ≠ [] →
    (∀ t ∈ ts, wfInput t = true) →
    ∀ (acc : List (String × String × String)),
      sigLoop (String.intercalate ", "
          (ts.map fun t => if ev then eventABITypeSignature t else t.signature)).data
        "" "" "" true acc =
      some (acc ++ ts.map fun t =>
        (t.canonical_type, (if ev && t.indexed then "indexed" else ""), t.name.getD "")) := by
  intro ts
  induction ts with
  | nil => intro h; exact absurd rfl h
  | cons t rest ih =>
    intro _ hall acc
    have hwt : wfInput t = true := hall t (List.mem_cons_self t rest)
    cases rest with
    | nil =>
      simp only [List.map_cons, List.map_nil]
      have hone : (String.intercalate ", "
          [if ev then eventABITypeSignature t else t.signature]).data =
          (if ev then eventABITypeSignature t else t.signature).data ++ [] := by
        rw [intercalate_data]
        simp
      rw [hone, sigLoop_piece ev t hwt [] (Or.inl rfl) acc]
      show sigLoopF 0 [] _ _ _ _ _ = _
      rw [sigLoopF, if_pos (canonical_wf_ne_empty hwt)]
    | cons t2 rest2 =>
      rw [intercalate_map_cons_cons]
      obtain ⟨x, xs, hx, hxne⟩ :=
        piece_data_head ev t2 (hall t2 (List.mem_cons_of_mem t (List.mem_cons_self t2 rest2)))
      have hrest : ∃ Z, (String.intercalate ", "
          ((t2 :: rest2).map fun u => if ev then eventABITypeSignature u else u.signature)).data =
          x :: (xs ++ Z) := by
        cases rest2 with
        | nil =>
          refine ⟨[], ?_⟩
          rw [List.map_cons, List.map_nil, intercalate_data]
          simp [hx]
        | cons t3 rest3 =>
          refine ⟨", ".data ++ (String.intercalate ", "
            ((t3 :: rest3).map fun u =>
              if ev then eventABITypeSignature u else u.signature)).data, ?_⟩
          rw [intercalate_map_cons_cons, hx]
          simp
      obtain ⟨Z, hZ⟩ := hrest
      rw [hZ]
      rw [show ((", " : String).data ++ (x :: (xs ++ Z))) =
        ',' :: ' ' :: x :: (xs ++ Z) from rfl]
      rw [sigLoop_piece ev t hwt (',' :: ' ' :: x :: (xs ++ Z))
          (Or.inr ⟨' ' :: x :: (xs ++ Z), rfl⟩) acc,
        sigLoop_comma x hxne (xs ++ Z) _ _ _ _ _, ← hZ,
        ih (by simp) (fun u hu => hall u (List.mem_cons_of_mem t hu)) _]
      simp

/-- Characters of an intercalation come from the pieces or the separator. -/
theorem mem_intercalate_gen {sep : String} {xs : List String} {c : Char}
    (hc : c ∈ (String.intercalate sep xs).data) :
    (∃ x ∈ xs, c ∈ x.data) ∨ c ∈ sep.data := by
  cases xs with
  | nil => simp [String.intercalate] at hc
  | cons x rest =>
    rw [intercalate_data] at hc
    rcases List.mem_append.mp hc with hx | hfl
    · exact Or.inl ⟨x, List.mem_cons_self x rest, hx⟩
    · rw [List.mem_flatten] at hfl
      obtain ⟨l, hl, hcl⟩ := hfl
      rw [List.mem_map] at hl
      obtain ⟨a, ha, hae⟩ := hl
      rw [← hae] at hcl
      rcases List.mem_append.mp hcl with hsep | hic
      · exact Or.inr hsep
      · exact Or.inl ⟨a, List.mem_cons_of_mem x ha, hic⟩

/-- Characters of a wellformed input's canonical type. -/
theorem canonical_wf_chars (t : ABIType) (hwf : wfInput t = true) :
    ∀ c ∈ t.canonical_type.data, goodChar c = true ∨ c = '(' ∨ c = ')' ∨ c = ',' := by
  obtain ⟨nm, hname, hnmgood, hshape⟩ := wfInput_spec hwf
  cases t with
  | mk name ty comps ix =>
    rcases hshape with ⟨s, hty, hcomps, hgood⟩ | ⟨cs, hty, hcomps, hne, hall⟩
    · simp only [ABIType.type] at hty
      simp only [ABIType.components] at hcomps
      subst hty
      subst hcomps
      rw [canonical_simple]
      intro c hc
      exact Or.inl ((goodIdent_spec hgood).2 c hc)
    · simp only [ABIType.type] at hty
      simp only [ABIType.components] at hcomps
      subst hty
      subst hcomps
      cases cs with
      | nil => exact absurd rfl hne
      | cons c0 cs' =>
        rw [canonical_tuple]
        intro c hc
        simp only [String.data_append] at hc
        rcases List.mem_append.mp hc with hc1 | hc2
        · rcases List.mem_append.mp hc1 with hcp | hcm
          · right; left
            simpa using hcp
          · rcases mem_intercalate_comma hcm (tuple_components_chars hall) with hg | hcomma
            · exact Or.inl hg
            · exact Or.inr (Or.inr (Or.inr hcomma))
        · right; right; left
          simpa using hc2

/-- Characters of a wellformed input's display text. -/
theorem piece_chars (ev : Bool) (t : ABIType) (hwf : wfInput t = true) :
    ∀ c ∈ (if ev then eventABITypeSignature t else t.signature).data,
      goodChar c = true ∨ c = '(' ∨ c = ')' ∨ c = ',' ∨ c = ' ' := by
  obtain ⟨nm, hname, hnmgood, hsigeq⟩ := piece_sig_decomp ev t hwf
  intro c hc
  rw [hsigeq, String.data_append, String.data_append, String.data_append] at hc
  have hixchars : ∀ a ∈ (" indexed" : String).data, a = ' ' ∨ goodChar a = true := by decide
  rcases List.mem_append.mp hc with h1 | hnm
  · rcases List.mem_append.mp h1 with h2 | hsp
    · rcases List.mem_append.mp h2 with hcan | hixp
      · rcases canonical_wf_chars t hwf c hcan with hg | h | h | h
        · exact Or.inl hg
        · exact Or.inr (Or.inl h)
        · exact Or.inr (Or.inr (Or.inl h))
        · exact Or.inr (Or.inr (Or.inr (Or.inl h)))
      · cases hix : ev && t.indexed with
        | false => rw [hix] at hixp; simp at hixp
        | true =>
          rw [hix] at hixp
          rcases hixchars c hixp with h | h
          · exact Or.inr (Or.inr (Or.inr (Or.inr h)))
          · exact Or.inl h
    · right; right; right; right
      simpa using hsp
  · exact Or.inl ((goodIdent_spec hnmgood).2 c hnm)

/-- Splitting on `" -> "` is trivial on dash-free text. -/
theorem splitSeqAux_no_dash : ∀ (fuel : Nat) (l : List Char), l.length ≤ fuel →
    '-' ∉ l → splitSeqAux " -> ".data fuel l = [l] := by
  intro fuel
  induction fuel with
  | zero =>
    intro l h hd
    have : l = [] := List.eq_nil_of_length_eq_zero (Nat.le_zero.mp h)
    subst this
    rfl
  | succ f ih =>
    intro l h hd
    cases l with
    | nil => rfl
    | cons c rest =>
      rw [splitSeqAux]
      have hnp : " -> ".data.isPrefixOf (c :: rest) = false := by
        by_contra hcon
        rw [Bool.not_eq_false, List.isPrefixOf_iff_prefix] at hcon
        obtain ⟨u, hu⟩ := hcon
        apply hd
        rw [← hu]
        exact List.mem_append.mpr (Or.inl (by decide))
      rw [hnp]
      simp only [Bool.false_eq_true, if_false]
      rw [ih rest (by simpa using h) (fun hm => hd (List.mem_cons_of_mem c hm))]

theorem splitSeqAux_no_dash_mem : ∀ (fuel : Nat) (l : List Char), l.length ≤ fuel →
    (∀ c ∈ l, c ≠ '-') → splitSeqAux " -> ".data fuel l = [l] := fun fuel l h hall =>
  splitSeqAux_no_dash fuel l h (fun hm => hall '-' hm rfl)

/-- Splitting on `" -> "` around its only occurrence. -/
theorem splitSeqAux_single : ∀ (a : List Char) (fuel : Nat) (b : List Char),
    (a ++ " -> ".data ++ b).length ≤ fuel → '-' ∉ a → '-' ∉ b →
    splitSeqAux " -> ".data fuel (a ++ " -> ".data ++ b) = [a, b] := by
  intro a
  induction a with
  | nil =>
    intro fuel b hlen ha hb
    cases fuel with
    | zero => simp at hlen
    | succ f =>
      simp only [List.nil_append]
      have hshape : (" -> ".data ++ b : List Char) = ' ' :: ('-' :: '>' :: ' ' :: b) := rfl
      rw [hshape, splitSeqAux]
      have hpre : " -> ".data.isPrefixOf (' ' :: ('-' :: '>' :: ' ' :: b)) = true := by
        have := List.isPrefixOf_iff_prefix.mpr (List.prefix_append " -> ".data b)
        exact this
      rw [if_pos hpre]
      have hdrop : ((' ' :: ('-' :: '>' :: ' ' :: b)) :
          List Char).drop (" -> ".data).length = b := rfl
      rw [hdrop, splitSeqAux_no_dash f b (by simp at hlen; omega) hb]
  | cons c a' ih =>
    intro fuel b hlen ha hb
    cases fuel with
    | zero => simp at hlen
    | succ f =>
      simp only [List.cons_append]
      rw [splitSeqAux]
      have hnp : " -> ".data.isPrefixOf (c :: (a' ++ " -> ".data ++ b)) = false := by
        by_contra hcon
        rw [Bool.not_eq_false, List.isPrefixOf_iff_prefix] at hcon
        obtain ⟨u, hu⟩ := hcon
        have hu' : c :: (a' ++ " -> ".data ++ b) = ' ' :: '-' :: '>' :: ' ' :: u := hu.symm
        cases a' with
        | nil =>
          simp only [List.nil_append] at hu'
          have : (" -> ".data ++ b) = '-' :: '>' :: ' ' :: u := (List.cons.injEq _ _ _ _).mp hu' |>.2
          have h0 : (' ' : Char) = '-' := by
            have := congrArg (fun l => l.head?) this
            simp at this
          exact absurd h0 (by decide)
        | cons d a'' =>
          simp only [List.cons_append] at hu'
          have hd2 : d = '-' :=
            ((List.cons.injEq _ _ _ _).mp ((List.cons.injEq _ _ _ _).mp hu').2).1
          subst hd2
          exact ha (List.mem_cons_of_mem c (List.mem_cons_self '-' a''))
      rw [hnp]
      simp only [Bool.false_eq_true, if_false]
      have hrec := ih f b (by simp at hlen ⊢; omega) (fun hm => ha (List.mem_cons_of_mem c hm)) hb
      simp only [List.append_assoc] at hrec ⊢
      rw [hrec]

theorem pySplitSeq_no_dash (l : List Char) (hd : '-' ∉ l) :
    pySplitSeq " -> ".data l = [l] :=
  splitSeqAux_no_dash l.length l le_rfl hd

theorem pySplitSeq_single (a b : List Char) (ha : '-' ∉ a) (hb : '-' ∉ b) :
    pySplitSeq " -> ".data (a ++ " -> ".data ++ b) = [a, b] :=
  splitSeqAux_single a _ b le_rfl ha hb

/-- `findIdx?` over a prefix without the target. -/
theorem findIdx?_paren_aux (a : List Char) (h : ∀ c ∈ a, c ≠ '(') (b : List Char) :
    ∀ (i : Nat), List.findIdx? (fun c => c = '(') (a ++ '(' :: b) i = some (i + a.length) := by
  induction a with
  | nil =>
    intro i
    rw [List.nil_append, List.findIdx?_cons, if_pos (by simp)]
    simp
  | cons c a' ih =>
    intro i
    rw [List.cons_append, List.findIdx?_cons,
      if_neg (by simpa using h c (List.mem_cons_self c a')),
      ih (fun x hx => h x (List.mem_cons_of_mem c hx)) (i + 1)]
    simp only [List.length_cons]
    congr 1
    omega

/-- Generic `dropWhile` inertia. -/
theorem dropWhile_all_false {p : Char → Bool} : ∀ (l : List Char),
    (∀ c ∈ l, p c = false) → l.dropWhile p = l := by
  intro l h
  cases l with
  | nil => rfl
  | cons c rest =>
    rw [List.dropWhile_cons, if_neg (by simp [h c (List.mem_cons_self c rest)])]

/-- Stripping whitespace from whitespace-free text. -/
theorem pyStrip_all (l : List Char) (h : ∀ c ∈ l, isPyWhitespace c = false) :
    pyStrip l = l := by
  unfold pyStrip
  rw [dropWhile_all_false l h,
    dropWhile_all_false l.reverse (fun c hc => h c (List.mem_reverse.mp hc)),
    List.reverse_reverse]

/-- Stripping whitespace around a parenthesised group is the identity. -/
theorem pyStrip_paren_wrap (m : List Char) :
    pyStrip ('(' :: (m ++ [')'])) = '(' :: (m ++ [')'])  := by
  unfold pyStrip
  rw [List.dropWhile_cons, if_neg (by decide)]
  have hrev : ('(' :: (m ++ [')'])).reverse = ')' :: ('(' :: m).reverse := by
    simp
  rw [hrev, List.dropWhile_cons, if_neg (by decide), ← hrev, List.reverse_reverse]

/-- Stripping outer parentheses from a wrapped paren-free group. -/
theorem stripParens_wrap (m : List Char)
    (h : ∀ c ∈ m, (c = '(' || c = ')') = false) :
    stripParens ('(' :: (m ++ [')'])) = m := by
  unfold stripParens
  simp only []
  rw [List.dropWhile_cons, if_pos (by decide)]
  cases m with
  | nil => rfl
  | cons c mid =>
    rw [List.cons_append, List.dropWhile_cons,
      if_neg (by simp [h c (List.mem_cons_self c mid)])]
    have hrev : (c :: (mid ++ [')'])).reverse = ')' :: (c :: mid).reverse := by
      simp
    rw [hrev, List.dropWhile_cons, if_pos (by decide),
      dropWhile_all_false (c :: mid).reverse
        (fun x hx => by simp [h x (List.mem_reverse.mp hx)]),
      List.reverse_reverse]

/-- `splitChar` is trivial without the separator. -/
theorem splitChar_no_sep (c : Char) : ∀ (l : List Char), c ∉ l →
    splitChar c l = [l] := by
  intro l
  induction l with
  | nil => intro h; rfl
  | cons x xs ih =>
    intro h
    rw [splitChar,
      if_neg (fun he => h (by rw [← he]; exact List.mem_cons_self x xs)),
      ih (fun hm => h (List.mem_cons_of_mem x hm))]

/-- Splitting a `", "`-join of comma-free pieces on `','` recovers the
pieces, with the separator's space glued onto each later piece. -/
theorem splitChar_comma_intercalate : ∀ (x : String) (r : List String),
    (∀ y ∈ x :: r, ',' ∉ y.data) →
    splitChar ',' (String.intercalate ", " (x :: r)).data =
      x.data :: r.map (fun y => ' ' :: y.data) := by
  intro x r
  induction r generalizing x with
  | nil =>
    intro h
    rw [intercalate_data]
    simp only [List.map_nil, List.flatten_nil, List.append_nil]
    exact splitChar_no_sep ',' x.data (h x (List.mem_cons_self x []))
  | cons y r' ih =>
    intro h
    rw [intercalate_cons_cons]
    have hsep : (", " : String).data ++ (String.intercalate ", " (y :: r')).data =
        ',' :: ([' '] ++ (String.intercalate ", " (y :: r')).data) := rfl
    rw [hsep]
    rw [splitChar_append_sep ',' x.data
      ([' '] ++ (String.intercalate ", " (y :: r')).data)]
    rw [splitChar_no_sep ',' x.data (h x (List.mem_cons_self x (y :: r')))]
    have hstep : splitChar ',' ([' '] ++ (String.intercalate ", " (y :: r')).data) =
        (' ' :: y.data) :: r'.map (fun z => ' ' :: z.data) := by
      have hin := ih y (fun z hz => h z (List.mem_cons_of_mem x hz))
      rw [List.singleton_append, splitChar, if_neg (by decide), hin]
    rw [hstep]
    simp

/-- Stripping parentheses from paren-free text is the identity. -/
theorem stripParens_all (l : List Char)
    (h : ∀ c ∈ l, (c = '(' || c = ')') = false) :
    stripParens l = l := by
  unfold stripParens
  simp only []
  rw [dropWhile_all_false l h,
    dropWhile_all_false l.reverse (fun c hc => h c (List.mem_reverse.mp hc)),
    List.reverse_reverse]

/-- Stripping a single leading space off otherwise whitespace-free text. -/
theorem pyStrip_space_cons (l : List Char)
    (h : ∀ c ∈ l, isPyWhitespace c = false) :
    pyStrip (' ' :: l) = l := by
  unfold pyStrip
  rw [List.dropWhile_cons, if_pos (by decide), dropWhile_all_false l h,
    dropWhile_all_false l.reverse (fun c hc => h c (List.mem_reverse.mp hc)),
    List.reverse_reverse]

/-- The generic piece map at `ev = false` is the method piece map. -/
theorem map_pieces_false (ts : List ABIType) :
    (ts.map fun t => if (false : Bool) then eventABITypeSignature t
      else t.signature) = ts.map ABIType.signature := by
  simp

/-- The generic piece map at `ev = true` is the event piece map. -/
theorem map_pieces_true (ts : List ABIType) :
    (ts.map fun t => if (true : Bool) then eventABITypeSignature t
      else t.signature) = ts.map eventABITypeSignature := by
  simp

/-- The comma-join of a nonempty wellformed piece list is a nonempty
character list. -/
theorem pieces_data_head (ev : Bool) (t0 : ABIType) (r : List ABIType)
    (hwf0 : wfInput t0 = true) :
    ∃ x xs, (String.intercalate ", " ((t0 :: r).map fun t =>
      if ev then eventABITypeSignature t else t.signature)).data = x :: xs := by
  obtain ⟨x, xs, hx, _⟩ := piece_data_head ev t0 hwf0
  cases r with
  | nil =>
    refine ⟨x, xs, ?_⟩
    rw [List.map_cons, List.map_nil, intercalate_data]
    simp [hx]
  | cons t2 r2 =>
    refine ⟨x, xs ++ (", ".data ++ (String.intercalate ", "
      ((t2 :: r2).map fun t =>
        if ev then eventABITypeSignature t else t.signature)).data), ?_⟩
    rw [intercalate_map_cons_cons, hx]
    simp

/-- The pre-`" -> "` part of an assembled signature contains no dash. -/
theorem std_no_dash (ev : Bool) (nameStr : String)
    (hname : goodIdent nameStr = true)
    (ts : List ABIType) (hts : ∀ t ∈ ts, wfInput t = true) :
    '-' ∉ (nameStr.data ++ ('(' :: ((String.intercalate ", "
      (ts.map fun t => if ev then eventABITypeSignature t else t.signature)).data
        ++ [')']))) := by
  intro hmem
  rcases List.mem_append.mp hmem with hn | hrest
  · exact absurd ((goodIdent_spec hname).2 '-' hn) (by decide)
  · rcases List.mem_cons.mp hrest with hp | hrest2
    · exact absurd hp (by decide)
    · rcases List.mem_append.mp hrest2 with hargs | hcp
      · rcases mem_intercalate_gen hargs with ⟨x, hx, hcx⟩ | hsep
        · rw [List.mem_map] at hx
          obtain ⟨t, ht, hte⟩ := hx
          rw [← hte] at hcx
          rcases piece_chars ev t (hts t ht) '-' hcx with hg | h | h | h | h
          · exact absurd hg (by decide)
          · exact absurd h (by decide)
          · exact absurd h (by decide)
          · exact absurd h (by decide)
          · exact absurd h (by decide)
        · have hd2 : (", " : String).data = [',', ' '] := rfl
          rw [hd2] at hsep
          rcases List.mem_cons.mp hsep with h | h
          · exact absurd h (by decide)
          · exact absurd (List.mem_singleton.mp h) (by decide : ¬('-' = ' '))
      · exact absurd (List.mem_singleton.mp hcp) (by decide : ¬('-' = ')'))

/-- Unpacking of `wfOutput`. -/
theorem wfOutput_spec {t : ABIType} (h : wfOutput t = true) :
    ∃ s, t.type = Sum.inl s ∧ t.components = Option.none ∧
      goodIdent s = true := by
  unfold wfOutput at h
  cases t with
  | mk name ty comps ix =>
    simp only [ABIType.type, ABIType.components] at h ⊢
    cases ty with
    | inr t' => cases comps <;> simp at h
    | inl s =>
      cases comps with
      | none => exact ⟨s, rfl, rfl, h⟩
      | some cs => simp at h

/-- The canonical type of a wellformed output is a wellformed
identifier. -/
theorem canonical_out_good (t : ABIType) (h : wfOutput t = true) :
    goodIdent t.canonical_type = true := by
  obtain ⟨s, hty, hcomps, hgood⟩ := wfOutput_spec h
  cases t with
  | mk name ty comps ix =>
    simp only [ABIType.type] at hty
    simp only [ABIType.components] at hcomps
    subst hty
    subst hcomps
    rw [canonical_simple]
    exact hgood

/-- Mapping strip-and-pack over space-prefixed whitespace-free pieces
recovers the pieces. -/
theorem out_pieces_map : ∀ (l : List String),
    (∀ y ∈ l, ∀ c ∈ y.data, isPyWhitespace c = false) →
    (l.map (fun y => ' ' :: y.data)).map (fun o => String.mk (pyStrip o)) = l := by
  intro l
  induction l with
  | nil => intro h; rfl
  | cons y r ih =>
    intro h
    have hmk : String.mk y.data = y := rfl
    rw [List.map_cons, List.map_cons,
      pyStrip_space_cons y.data (h y (List.mem_cons_self y r)), hmk,
      ih (fun z hz c hc => h z (List.mem_cons_of_mem y hz) c hc)]

/-- The `"indexed"` marker produced by a signature decodes back to the
original flag. -/
theorem indexed_marker_decode (b : Bool) :
    (decide ((if b then "indexed" else "") = "indexed")) = b := by
  cases b <;> decide

/-- Evaluation of `parse_signature` on an assembled wellformed signature:
the name is everything before the first parenthesis, the inputs parse to
their `(canonical type, indexed marker, name)` triples, and the output
text after `" -> "` (when present) is comma-split after stripping
parentheses and whitespace. -/
theorem parse_signature_core (ev : Bool) (nameStr : String)
    (hname : goodIdent nameStr = true)
    (ts : List ABIType) (hts : ∀ t ∈ ts, wfInput t = true)
    (sig : String) (outMaybe : List Char)
    (hsplit : pySplitSeq " -> ".data sig.data =
      (nameStr.data ++ ('(' :: ((String.intercalate ", "
        (ts.map fun t => if ev then eventABITypeSignature t else t.signature)).data
          ++ [')'])))
        :: (if outMaybe = [] then [] else [outMaybe])) :
    parse_signature sig =
      some (nameStr,
        ts.map (fun t =>
          (t.canonical_type, (if ev && t.indexed then "indexed" else ""),
            t.name.getD "")),
        if outMaybe ≠ [] then
          (splitChar ',' (stripParens outMaybe)).map fun o => String.mk (pyStrip o)
        else []) := by
  have hgood : ∀ c ∈ nameStr.data, goodChar c = true := (goodIdent_spec hname).2
  have hnows : ∀ c ∈ nameStr.data, isPyWhitespace c = false := fun c hc =>
    (goodChar_spec (hgood c hc)).2.2.2.2.2.2
  have hnp : ∀ c ∈ nameStr.data, c ≠ '(' := fun c hc =>
    (goodChar_spec (hgood c hc)).2.2.1
  have hmk : String.mk nameStr.data = nameStr := rfl
  have hfind : List.findIdx? (fun c => c = '(')
      (nameStr.data ++ ('(' :: ((String.intercalate ", "
        (ts.map fun t => if ev then eventABITypeSignature t else t.signature)).data
          ++ [')']))) = some nameStr.data.length := by
    have h0 := findIdx?_paren_aux nameStr.data hnp
      ((String.intercalate ", " (ts.map fun t =>
        if ev then eventABITypeSignature t else t.signature)).data ++ [')']) 0
    simpa using h0
  have hrem : ((pyStrip ('(' :: ((String.intercalate ", "
      (ts.map fun t => if ev then eventABITypeSignature t else t.signature)).data
        ++ [')']))).drop 1).dropLast =
      (String.intercalate ", " (ts.map fun t =>
        if ev then eventABITypeSignature t else t.signature)).data := by
    rw [pyStrip_paren_wrap]
    simp
  have hinputs : parseSignatureInputs (String.intercalate ", "
      (ts.map fun t => if ev then eventABITypeSignature t else t.signature)).data =
      some (ts.map fun t =>
        (t.canonical_type, (if ev && t.indexed then "indexed" else ""),
          t.name.getD "")) := by
    cases ts with
    | nil => rfl
    | cons t0 tr =>
      obtain ⟨x, xs, hx⟩ :=
        pieces_data_head ev t0 tr (hts t0 (List.mem_cons_self t0 tr))
      unfold parseSignatureInputs
      rw [if_neg (by rw [hx]; simp),
        sigLoop_inputs ev (t0 :: tr) (by simp) hts []]
      simp
  by_cases hom : outMaybe = []
  · rw [if_pos hom] at hsplit
    subst hom
    simp only [parse_signature, hsplit, List.headD_cons, hfind, List.take_left,
      List.drop_left, pyStrip_all nameStr.data hnows, hmk, hrem, hinputs]
    simp
  · rw [if_neg hom] at hsplit
    simp only [parse_signature, hsplit, List.headD_cons, hfind, List.take_left,
      List.drop_left, pyStrip_all nameStr.data hnows, hmk, hrem, hinputs]
    simp [hom]

/-- `parse_signature` applied to the display signature of a wellformed
method recovers the name, the input triples and the canonical output
types. -/
theorem parse_signature_method (m : MethodABI) (hm : wfMethod m = true) :
    parse_signature m.signature =
      some (m.name,
        m.inputs.map (fun t => (t.canonical_type, "", t.name.getD "")),
        m.outputs.map ABIType.canonical_type) := by
  obtain ⟨nm, stm, ins, outs⟩ := m
  unfold wfMethod at hm
  rw [Bool.and_eq_true, Bool.and_eq_true] at hm
  obtain ⟨⟨hname, hinsall⟩, houtsall⟩ := hm
  have hins : ∀ t ∈ ins, wfInput t = true := fun t ht =>
    List.all_eq_true.mp hinsall t ht
  have houts : ∀ t ∈ outs, wfOutput t = true := fun t ht =>
    List.all_eq_true.mp houtsall t ht
  have hlp : ("(" : String).data = ['('] := rfl
  have hrp : (")" : String).data = [')'] := rfl
  have hed : ("" : String).data = ([] : List Char) := rfl
  cases outs with
  | nil =>
    have hsig : (MethodABI.signature ⟨nm, stm, ins, []⟩).data =
        nm.data ++ ('(' :: ((String.intercalate ", "
          (ins.map fun t => if (false : Bool) then eventABITypeSignature t
            else t.signature)).data ++ [')'])) := by
      rw [map_pieces_false]
      show (nm ++ "(" ++ String.intercalate ", " (ins.map ABIType.signature)
        ++ ")" ++ "").data = _
      simp [String.data_append, hlp, hrp, hed]
    have hsplit : pySplitSeq " -> ".data
        (MethodABI.signature ⟨nm, stm, ins, []⟩).data =
        (nm.data ++ ('(' :: ((String.intercalate ", "
          (ins.map fun t => if (false : Bool) then eventABITypeSignature t
            else t.signature)).data ++ [')'])))
          :: (if ([] : List Char) = [] then [] else [[]]) := by
      rw [hsig, pySplitSeq_no_dash _ (std_no_dash false nm hname ins hins)]
      rfl
    rw [parse_signature_core false nm hname ins hins _ [] hsplit]
    simp
  | cons o1 otl =>
    cases otl with
    | nil =>
      have hognd : goodIdent (ABIType.canonical_type o1) = true :=
        canonical_out_good o1 (houts o1 (List.mem_cons_self o1 []))
      have hogood := (goodIdent_spec hognd).2
      have hone : (ABIType.canonical_type o1).data ≠ [] :=
        (goodIdent_spec hognd).1
      have hsig : (MethodABI.signature ⟨nm, stm, ins, [o1]⟩).data =
          (nm.data ++ ('(' :: ((String.intercalate ", "
            (ins.map fun t => if (false : Bool) then eventABITypeSignature t
              else t.signature)).data ++ [')']))) ++ " -> ".data
            ++ (ABIType.canonical_type o1).data := by
        rw [map_pieces_false]
        show (nm ++ "(" ++ String.intercalate ", " (ins.map ABIType.signature)
          ++ ")" ++ (" -> " ++ ABIType.canonical_type o1)).data = _
        simp [String.data_append, hlp, hrp]
      have hodash : '-' ∉ (ABIType.canonical_type o1).data := fun hmem =>
        absurd (hogood '-' hmem) (by decide)
      have hsplit : pySplitSeq " -> ".data
          (MethodABI.signature ⟨nm, stm, ins, [o1]⟩).data =
          (nm.data ++ ('(' :: ((String.intercalate ", "
            (ins.map fun t => if (false : Bool) then eventABITypeSignature t
              else t.signature)).data ++ [')'])))
            :: (if (ABIType.canonical_type o1).data = [] then []
                else [(ABIType.canonical_type o1).data]) := by
        rw [hsig,
          pySplitSeq_single _ _ (std_no_dash false nm hname ins hins) hodash,
          if_neg hone]
      rw [parse_signature_core false nm hname ins hins _ _ hsplit]
      have hnowso : ∀ c ∈ (ABIType.canonical_type o1).data,
          isPyWhitespace c = false := fun c hc =>
        (goodChar_spec (hogood c hc)).2.2.2.2.2.2
      have hstr : stripParens (ABIType.canonical_type o1).data =
          (ABIType.canonical_type o1).data :=
        stripParens_all _ (fun c hc => by
          have hspec := goodChar_spec (hogood c hc)
          simp [hspec.2.2.1, hspec.2.2.2.1])
      have hsp : splitChar ',' (ABIType.canonical_type o1).data =
          [(ABIType.canonical_type o1).data] :=
        splitChar_no_sep ',' _ (fun hmem =>
          absurd (hogood ',' hmem) (by decide))
      have hmko1 : String.mk (ABIType.canonical_type o1).data =
          ABIType.canonical_type o1 := rfl
      rw [if_pos hone, hstr, hsp]
      simp [pyStrip_all _ hnowso, hmko1]
    | cons o2 orest =>
      have hcgood : ∀ s ∈ (o1 :: o2 :: orest).map ABIType.canonical_type,
          goodIdent s = true := by
        intro s hs
        rw [List.mem_map] at hs
        obtain ⟨t, ht, hte⟩ := hs
        rw [← hte]
        exact canonical_out_good t (houts t ht)
      have hsig : (MethodABI.signature ⟨nm, stm, ins, o1 :: o2 :: orest⟩).data =
          (nm.data ++ ('(' :: ((String.intercalate ", "
            (ins.map fun t => if (false : Bool) then eventABITypeSignature t
              else t.signature)).data ++ [')'])))
            ++ " -> ".data
            ++ ('(' :: ((String.intercalate ", "
              ((o1 :: o2 :: orest).map ABIType.canonical_type)).data
                ++ [')'])) := by
        rw [map_pieces_false]
        show (nm ++ "(" ++ String.intercalate ", " (ins.map ABIType.signature)
          ++ ")" ++ (" -> " ++ ("(" ++ String.intercalate ", "
            ((o1 :: o2 :: orest).map ABIType.canonical_type) ++ ")"))).data = _
        simp [String.data_append, hlp, hrp]
      have hinnc : ∀ c ∈ (String.intercalate ", "
          ((o1 :: o2 :: orest).map ABIType.canonical_type)).data,
          goodChar c = true ∨ c = ',' ∨ c = ' ' := by
        intro c hc
        rcases mem_intercalate_gen hc with ⟨x, hx, hcx⟩ | hsep
        · exact Or.inl ((goodIdent_spec (hcgood x hx)).2 c hcx)
        · right
          have hd2 : (", " : String).data = [',', ' '] := rfl
          rw [hd2] at hsep
          simpa using hsep
      have hodash : '-' ∉ ('(' :: ((String.intercalate ", "
          ((o1 :: o2 :: orest).map ABIType.canonical_type)).data ++ [')'])) := by
        intro hmem
        rcases List.mem_cons.mp hmem with h | h2
        · exact absurd h (by decide)
        · rcases List.mem_append.mp h2 with hin | hp
          · rcases hinnc '-' hin with hg | h | h
            · exact absurd hg (by decide)
            · exact absurd h (by decide)
            · exact absurd h (by decide)
          · exact absurd (List.mem_singleton.mp hp) (by decide : ¬('-' = ')'))
      have hsplit : pySplitSeq " -> ".data
          (MethodABI.signature ⟨nm, stm, ins, o1 :: o2 :: orest⟩).data =
          (nm.data ++ ('(' :: ((String.intercalate ", "
            (ins.map fun t => if (false : Bool) then eventABITypeSignature t
              else t.signature)).data ++ [')'])))
            :: (if ('(' :: ((String.intercalate ", "
                ((o1 :: o2 :: orest).map ABIType.canonical_type)).data
                  ++ [')'])) = []
              then []
              else [('(' :: ((String.intercalate ", "
                ((o1 :: o2 :: orest).map ABIType.canonical_type)).data
                  ++ [')']))]) := by
        rw [hsig,
          pySplitSeq_single _ _ (std_no_dash false nm hname ins hins) hodash,
          if_neg (by simp)]
      rw [parse_signature_core false nm hname ins hins _ _ hsplit]
      have hstr : stripParens ('(' :: ((String.intercalate ", "
          ((o1 :: o2 :: orest).map ABIType.canonical_type)).data ++ [')'])) =
          (String.intercalate ", "
            ((o1 :: o2 :: orest).map ABIType.canonical_type)).data :=
        stripParens_wrap _ (fun c hc => by
          rcases hinnc c hc with hg | h | h
          · have hspec := goodChar_spec hg
            simp [hspec.2.2.1, hspec.2.2.2.1]
          · subst h; decide
          · subst h; decide)
      have hnc : ∀ y ∈ ABIType.canonical_type o1 ::
          (o2 :: orest).map ABIType.canonical_type, ',' ∉ y.data := by
        intro y hy hmem
        have hy' : y ∈ (o1 :: o2 :: orest).map ABIType.canonical_type := by
          rw [List.map_cons]
          exact hy
        exact absurd ((goodIdent_spec (hcgood y hy')).2 ',' hmem) (by decide)
      have hsp : splitChar ',' (String.intercalate ", "
          ((o1 :: o2 :: orest).map ABIType.canonical_type)).data =
          (ABIType.canonical_type o1).data ::
            ((o2 :: orest).map ABIType.canonical_type).map
              (fun y => ' ' :: y.data) := by
        have h0 := splitChar_comma_intercalate (ABIType.canonical_type o1)
          ((o2 :: orest).map ABIType.canonical_type) hnc
        rw [← List.map_cons] at h0
        exact h0
      have hnwsL : ∀ y ∈ (o2 :: orest).map ABIType.canonical_type,
          ∀ c ∈ y.data, isPyWhitespace c = false := by
        intro y hy c hc
        have hy' : y ∈ (o1 :: o2 :: orest).map ABIType.canonical_type := by
          rw [List.map_cons]
          exact List.mem_cons_of_mem _ hy
        exact (goodChar_spec ((goodIdent_spec (hcgood y hy')).2 c hc)).2.2.2.2.2.2
      have hnws1 : ∀ c ∈ (ABIType.canonical_type o1).data,
          isPyWhitespace c = false := by
        intro c hc
        have hg := hcgood (ABIType.canonical_type o1)
          (by rw [List.map_cons]; exact List.mem_cons_self _ _)
        exact (goodChar_spec ((goodIdent_spec hg).2 c hc)).2.2.2.2.2.2
      have hmko1 : String.mk (ABIType.canonical_type o1).data =
          ABIType.canonical_type o1 := rfl
      rw [if_pos (by simp), hstr, hsp, List.map_cons, out_pieces_map _ hnwsL,
        pyStrip_all _ hnws1]
      simp [hmko1]

/-- `parse_signature` applied to the display signature of a wellformed
event recovers the name and the input triples with `indexed` markers,
and no outputs. -/
theorem parse_signature_event (e : EventABI) (he : wfEvent e = true) :
    parse_signature e.signature =
      some (e.name, e.inputs.map (fun t =>
        (t.canonical_type, (if t.indexed then "indexed" else ""),
          t.name.getD "")), []) := by
  obtain ⟨nm, ins, anon⟩ := e
  unfold wfEvent at he
  rw [Bool.and_eq_true] at he
  obtain ⟨hname, hinsall⟩ := he
  have hins : ∀ t ∈ ins, wfInput t = true := fun t ht =>
    List.all_eq_true.mp hinsall t ht
  have hlp : ("(" : String).data = ['('] := rfl
  have hrp : (")" : String).data = [')'] := rfl
  have hsig : (EventABI.signature ⟨nm, ins, anon⟩).data =
      nm.data ++ ('(' :: ((String.intercalate ", "
        (ins.map fun t => if (true : Bool) then eventABITypeSignature t
          else t.signature)).data ++ [')'])) := by
    rw [map_pieces_true]
    show (nm ++ "(" ++ String.intercalate ", " (ins.map eventABITypeSignature)
      ++ ")").data = _
    simp [String.data_append, hlp, hrp]
  have hsplit : pySplitSeq " -> ".data
      (EventABI.signature ⟨nm, ins, anon⟩).data =
      (nm.data ++ ('(' :: ((String.intercalate ", "
        (ins.map fun t => if (true : Bool) then eventABITypeSignature t
          else t.signature)).data ++ [')'])))
        :: (if ([] : List Char) = [] then [] else [[]]) := by
    rw [hsig, pySplitSeq_no_dash _ (std_no_dash true nm hname ins hins)]
    rfl
  rw [parse_signature_core true nm hname ins hins _ [] hsplit]
  simp

/-- C4 counterexample: the outputs of a method rebuilt by
`MethodABI.from_signature` are parsed back from the `" -> "` part of the
signature, not left at the `[]` default: `"foo() -> uint256"` (which is
exactly the signature of a method with one `uint256` output) rebuilds a
method carrying one `uint256` output. -/
theorem from_signature_outputs_counterexample :
    MethodABI.signature ⟨"foo", "nonpayable", [],
        [⟨Option.none, Sum.inl "uint256", Option.none, false⟩]⟩ =
      "foo() -> uint256" ∧
    MethodABI.from_signature "foo() -> uint256" =
      some ⟨"foo", "nonpayable", [],
        [⟨Option.none, Sum.inl "uint256", Option.none, false⟩]⟩ ∧
    ([⟨Option.none, Sum.inl "uint256", Option.none, false⟩] : List ABIType)
      ≠ [] := by
  refine ⟨rfl, rfl, by simp⟩

/-- C4 (corrected): on wellformed ABIs (named inputs of elementary or
flat tuple type, elementary outputs), `MethodABI.from_signature` rebuilds
from `MethodABI.signature` the method's name and its inputs with
canonical type and name preserved, and `EventABI.from_signature`
additionally preserves each input's `indexed` flag; state mutability is
left at its `"nonpayable"` default, but the outputs are parsed back from
the signature as their canonical types rather than left at the `[]`
default. -/
theorem from_signature_round_trip_amended (m : MethodABI) (e : EventABI)
    (hm : wfMethod m = true) (he : wfEvent e = true) :
    MethodABI.from_signature m.signature =
      some ⟨m.name, "nonpayable",
        m.inputs.map fun t =>
          ABIType.mk (some (t.name.getD "")) (Sum.inl t.canonical_type)
            Option.none false,
        m.outputs.map fun t =>
          ABIType.mk Option.none (Sum.inl t.canonical_type)
            Option.none false⟩ ∧
    EventABI.from_signature e.signature =
      some ⟨e.name,
        e.inputs.map fun t =>
          ABIType.mk (some (t.name.getD "")) (Sum.inl t.canonical_type)
            Option.none t.indexed,
        false⟩ := by
  constructor
  · unfold MethodABI.from_signature
    rw [parse_signature_method m hm]
    simp [List.map_map, Function.comp]
  · unfold EventABI.from_signature
    rw [parse_signature_event e he]
    simp [List.map_map, Function.comp, indexed_marker_decode]

/-- Witness for the C4 round trip at a concrete method and event. -/
theorem from_signature_round_trip_amended_witness :
    wfMethod ⟨"transfer", "nonpayable",
        [⟨some "to", Sum.inl "address", Option.none, false⟩,
         ⟨some "amount", Sum.inl "uint256", Option.none, false⟩],
        [⟨Option.none, Sum.inl "bool", Option.none, false⟩]⟩ = true ∧
    wfEvent ⟨"Transfer",
        [⟨some "sender", Sum.inl "address", Option.none, true⟩,
         ⟨some "amount", Sum.inl "uint256", Option.none, false⟩],
        false⟩ = true ∧
    (MethodABI.from_signature (MethodABI.signature ⟨"transfer", "nonpayable",
        [⟨some "to", Sum.inl "address", Option.none, false⟩,
         ⟨some "amount", Sum.inl "uint256", Option.none, false⟩],
        [⟨Option.none, Sum.inl "bool", Option.none, false⟩]⟩) =
      some ⟨"transfer", "nonpayable",
        [⟨some "to", Sum.inl "address", Option.none, false⟩,
         ⟨some "amount", Sum.inl "uint256", Option.none, false⟩],
        [⟨Option.none, Sum.inl "bool", Option.none, false⟩]⟩ ∧
     EventABI.from_signature (EventABI.signature ⟨"Transfer",
        [⟨some "sender", Sum.inl "address", Option.none, true⟩,
         ⟨some "amount", Sum.inl "uint256", Option.none, false⟩],
        false⟩) =
      some ⟨"Transfer",
        [⟨some "sender", Sum.inl "address", Option.none, true⟩,
         ⟨some "amount", Sum.inl "uint256", Option.none, false⟩],
        false⟩) := by
  refine ⟨by decide, by decide, ?_⟩
  have h := from_signature_round_trip_amended
    ⟨"transfer", "nonpayable",
      [⟨some "to", Sum.inl "address", Option.none, false⟩,
       ⟨some "amount", Sum.inl "uint256", Option.none, false⟩],
      [⟨Option.none, Sum.inl "bool", Option.none, false⟩]⟩
    ⟨"Transfer",
      [⟨some "sender", Sum.inl "address", Option.none, true⟩,
       ⟨some "amount", Sum.inl "uint256", Option.none, false⟩],
      false⟩
    (by decide) (by decide)
  exact ⟨h.1.trans (by rfl), h.2.trans (by rfl)⟩


end EthPM
